import Mathlib

/-!
Verification of the calibration-curve core of `direct_calibration_wizard.py`
(class `ChannelCalibration`): point management, linear and monotone-cubic
interpolation, threshold remap, LUT generation and serialization.

Modelling conventions:
* Python `int` is `ℤ`; Python `float` arithmetic is modelled exactly over `ℚ`
  (the spec describes the quantities as real-valued).
* `math.sqrt` (used only inside the tangent-limiting branch of
  `interpolate_smooth`) has no exact rational counterpart, so every definition
  that can reach it is parameterised by a function `sq : ℚ → ℚ` standing for
  the square root; all theorems hold for every choice of `sq`.
* Python `int(x)` is truncation toward zero, `pyTrunc`.
* Python dicts with `int` keys are association lists `List (ℤ × ℤ)`;
  `dictSet` mirrors insert-or-overwrite, `dictPop` mirrors `pop(k, None)`,
  and key uniqueness (automatic for Python dicts) appears as `Nodup`
  hypotheses on the key list.
* `sorted(...)` on keys is `List.insertionSort (· ≤ ·)` (extensionally equal
  to any correct sort).
* A Python statement that raises (`ZeroDivisionError` in `generate_lut`) is
  modelled by `Option`, with `none` for the raising run.
* Serialized decimal strings are modelled as a sign bit plus base-10 digit
  list (`DecStr`), with `str` / `int` as printing / parsing on that type.
-/

namespace CalWizard

/-- PWM_MAX = 65535, the 16-bit drive-value ceiling. -/
def PWM_MAX : ℤ := 65535

/-- Python `int(x)` on a rational: truncation toward zero. -/
def pyTrunc (q : ℚ) : ℤ := Int.tdiv q.num q.den

/-- Python dict insert-or-overwrite `d[k] = v` for an association list. -/
def dictSet : List (ℤ × ℤ) → ℤ → ℤ → List (ℤ × ℤ)
  | [], k, v => [(k, v)]
  | kv :: rest, k, v => if kv.1 = k then (k, v) :: rest else kv :: dictSet rest k v

/-- Python dict `d.pop(k, None)` for an association list. -/
def dictPop (pts : List (ℤ × ℤ)) (k : ℤ) : List (ℤ × ℤ) :=
  pts.eraseP (fun kv => decide (kv.1 = k))

/-- Python dict lookup `d[k]` / membership, as an `Option`. -/
def dictGet? (pts : List (ℤ × ℤ)) (k : ℤ) : Option ℤ :=
  (pts.find? (fun kv => decide (kv.1 = k))).map (fun kv => kv.2)

/-- Python dict `d.get(k, default)`. -/
def dictGetD (pts : List (ℤ × ℤ)) (k : ℤ) (d : ℤ) : ℤ :=
  (dictGet? pts k).getD d

/-- Calibration state for one channel: `{name, threshold, use_smooth, points}`. -/
structure ChannelCalibration where
  name : String
  threshold : ℤ
  use_smooth : Bool
  points : List (ℤ × ℤ)
deriving DecidableEq

/-- Constructor `ChannelCalibration.__init__`: threshold 0, smooth mode, and
the default point set 0↦0, 1↦0, 50↦32767, 100↦65535. -/
def initCalibration (name : String) : ChannelCalibration :=
  { name := name
    threshold := 0
    use_smooth := true
    points := [(0, 0), (1, 0), (50, PWM_MAX / 2), (100, PWM_MAX)] }

/-- Method `set_point`: stores `max(0, min(PWM_MAX, pwm_value))` at key `percent`. -/
def set_point (c : ChannelCalibration) (percent pwm_value : ℤ) : ChannelCalibration :=
  { c with points := dictSet c.points percent (max 0 (min PWM_MAX pwm_value)) }

/-- Method `remove_point`: no-op on keys 0 and 100, otherwise `pop(percent, None)`. -/
def remove_point (c : ChannelCalibration) (percent : ℤ) : ChannelCalibration :=
  if percent = 0 ∨ percent = 100 then c
  else { c with points := dictPop c.points percent }

/-- Method `add_point_between`: midpoint by floor division, value seeded as the
floor average of the neighbours (defaults 0 and PWM_MAX), returning the created
key together with the new state, or `none` with the unchanged state. -/
def add_point_between (c : ChannelCalibration) (lower_percent upper_percent : ℤ) :
    Option ℤ × ChannelCalibration :=
  let new_percent := Int.fdiv (lower_percent + upper_percent) 2
  if (dictGet? c.points new_percent).isSome = false ∧ new_percent ≠ lower_percent ∧
      new_percent ≠ upper_percent then
    let lower_val := dictGetD c.points lower_percent 0
    let upper_val := dictGetD c.points upper_percent PWM_MAX
    let new_val := Int.fdiv (lower_val + upper_val) 2
    (some new_percent, { c with points := dictSet c.points new_percent new_val })
  else (none, c)

/-- Method `get_sorted_percents`: the keys in ascending order. -/
def get_sorted_percents (c : ChannelCalibration) : List ℤ :=
  List.insertionSort (· ≤ ·) (c.points.map Prod.fst)

/-- The bracket-search loop of `interpolate_linear`: scan the sorted keys,
remembering the last key below `percent`, breaking at the first key above. -/
def bracketLoop (p : ℚ) : List ℤ → ℤ → ℤ → ℤ × ℤ
  | [], l, u => (l, u)
  | x :: rest, l, u =>
    if (x : ℚ) < p then bracketLoop p rest x u
    else if p < (x : ℚ) then (l, x)
    else bracketLoop p rest l u

/-- Method `interpolate_linear`. The empty-curve case (where Python would raise
IndexError, unreachable while the two endpoint keys exist) is mapped to 0. -/
def interpolate_linear (c : ChannelCalibration) (percent : ℚ) : ℤ :=
  match get_sorted_percents c with
  | [] => 0
  | x0 :: rest =>
    let xl := (x0 :: rest).getLastD 0
    if percent ≤ (x0 : ℚ) then dictGetD c.points x0 0
    else if (xl : ℚ) ≤ percent then dictGetD c.points xl 0
    else
      match (x0 :: rest).find? (fun (k : ℤ) => decide ((k : ℚ) = percent)) with
      | some k => dictGetD c.points k 0
      | none =>
        let lu := bracketLoop percent (x0 :: rest) x0 xl
        if lu.2 = lu.1 then dictGetD c.points lu.1 0
        else
          let t := (percent - (lu.1 : ℚ)) / ((lu.2 : ℚ) - (lu.1 : ℚ))
          pyTrunc ((dictGetD c.points lu.1 0 : ℚ) +
            t * ((dictGetD c.points lu.2 0 : ℚ) - (dictGetD c.points lu.1 0 : ℚ)))

/-- Secant slopes between consecutive nodes: `dy/dx`, with 0 for a zero-width
segment, exactly as guarded in the source. -/
def deltasOf : List (ℤ × ℤ) → List ℚ
  | p0 :: p1 :: rest =>
    (if p1.1 - p0.1 ≠ 0 then ((p1.2 - p0.2 : ℤ) : ℚ) / ((p1.1 - p0.1 : ℤ) : ℚ) else 0) ::
      deltasOf (p1 :: rest)
  | _ => []

/-- Interior tangents: 0 at a secant sign change, else the harmonic mean of the
adjacent secants, exactly as written in the source. -/
def innerTangents : List ℚ → List ℚ
  | d0 :: d1 :: rest =>
    (if d0 * d1 ≤ 0 then 0 else 2 / (1 / d0 + 1 / d1)) :: innerTangents (d1 :: rest)
  | _ => []

/-- The initial tangent list: one-sided secants at the endpoints, interior
tangents in between (for at least two nodes). -/
def initTangents (d : List ℚ) : List ℚ :=
  match d with
  | [] => []
  | d0 :: _ => (d0 :: innerTangents d) ++ [d.getLastD 0]

/-- One iteration of the monotonicity-limiting pass at segment `i`:
zero both tangents over a flat secant, otherwise rescale both tangents by
`3 / sqrt (α² + β²)` when `α² + β² > 9`. -/
def limitStep (sq : ℚ → ℚ) (d : List ℚ) (t : List ℚ) (i : ℕ) : List ℚ :=
  if d.getD i 0 = 0 then (t.set i 0).set (i + 1) 0
  else
    let a := t.getD i 0 / d.getD i 0
    let b := t.getD (i + 1) 0 / d.getD i 0
    if 9 < a ^ 2 + b ^ 2 then
      let tau := 3 / sq (a ^ 2 + b ^ 2)
      (t.set i (tau * a * d.getD i 0)).set (i + 1) (tau * b * d.getD i 0)
    else t

/-- The monotonicity-limiting pass over all segments, in order. -/
def limitTangents (sq : ℚ → ℚ) (n : ℕ) (d : List ℚ) (t : List ℚ) : List ℚ :=
  (List.range (n - 1)).foldl (limitStep sq d) t

/-- The segment-search loop of `interpolate_smooth`: first `i` with
`x[i] ≤ percent ≤ x[i+1]` (`none` when no segment matches; the source then
defaults to segment 0). -/
def segLoop (p : ℚ) : List ℤ → ℕ → Option ℕ
  | x0 :: x1 :: rest, i =>
    if (x0 : ℚ) ≤ p ∧ p ≤ (x1 : ℚ) then some i else segLoop p (x1 :: rest) (i + 1)
  | _, _ => none

/-- The interior of `interpolate_smooth` as an exact rational: Hermite-basis
evaluation on the located segment, clamped to the segment value bounds and then
to `[0, PWM_MAX]`. `xs` is the sorted key list of `c`. -/
def smoothRat (sq : ℚ → ℚ) (c : ChannelCalibration) (xs : List ℤ) (p : ℚ) : ℚ :=
  let nodes := xs.map (fun k => (k, dictGetD c.points k 0))
  let n := nodes.length
  let d := deltasOf nodes
  let tg := limitTangents sq n d (initTangents d)
  let i := (segLoop p xs 0).getD 0
  let x0 : ℚ := ((nodes.getD i (0, 0)).1 : ℚ)
  let x1 : ℚ := ((nodes.getD (i + 1) (0, 0)).1 : ℚ)
  let y0 : ℚ := ((nodes.getD i (0, 0)).2 : ℚ)
  let y1 : ℚ := ((nodes.getD (i + 1) (0, 0)).2 : ℚ)
  let m0 := tg.getD i 0
  let m1 := tg.getD (i + 1) 0
  let h := x1 - x0
  let t := if h ≠ 0 then (p - x0) / h else 0
  let t2 := t * t
  let t3 := t2 * t
  let h00 := 2 * t3 - 3 * t2 + 1
  let h10 := t3 - 2 * t2 + t
  let h01 := -2 * t3 + 3 * t2
  let h11 := t3 - t2
  let result := h00 * y0 + h10 * h * m0 + h01 * y1 + h11 * h * m1
  let clamped := max (min y0 y1) (min (max y0 y1) result)
  max 0 (min (PWM_MAX : ℚ) clamped)

/-- Method `interpolate_smooth`: monotone cubic Hermite interpolation. The
fewer-than-two-node and out-of-range branches return stored values directly;
the interior branch truncates `smoothRat` toward zero. -/
def interpolate_smooth (sq : ℚ → ℚ) (c : ChannelCalibration) (percent : ℚ) : ℤ :=
  match get_sorted_percents c with
  | [] => 0
  | [x0] => dictGetD c.points x0 0
  | x0 :: x1 :: rest =>
    let xl := (x0 :: x1 :: rest).getLastD 0
    if percent ≤ (x0 : ℚ) then dictGetD c.points x0 0
    else if (xl : ℚ) ≤ percent then dictGetD c.points xl 0
    else pyTrunc (smoothRat sq c (x0 :: x1 :: rest) percent)

/-- The dispatch of method `interpolate`: smooth when `use_smooth` and at least
three points are stored, otherwise linear. -/
def rawInterpolate (sq : ℚ → ℚ) (c : ChannelCalibration) (percent : ℚ) : ℤ :=
  if c.use_smooth = true ∧ 3 ≤ c.points.length then interpolate_smooth sq c percent
  else interpolate_linear c percent

/-- Method `interpolate`: dispatch, then the threshold remap
`int(threshold + raw/PWM_MAX * (PWM_MAX - threshold))` when `threshold > 0`
and `percent > 0`. -/
def interpolate (sq : ℚ → ℚ) (c : ChannelCalibration) (percent : ℚ) : ℤ :=
  let raw := rawInterpolate sq c percent
  if 0 < c.threshold ∧ 0 < percent then
    pyTrunc ((c.threshold : ℚ) + ((raw : ℚ) / (PWM_MAX : ℚ)) * ((PWM_MAX : ℚ) - (c.threshold : ℚ)))
  else raw

/-- Python `i / j` on integers: raises ZeroDivisionError (modelled `none`) when
the divisor is zero. -/
def pyDiv (a b : ℚ) : Option ℚ :=
  if b = 0 then none else some (a / b)

/-- Effectful traversal: evaluate the body for each element, propagating the
first raised error, as a Python `for` loop with `append` does. -/
def optTraverse {α β : Type} (f : α → Option β) : List α → Option (List β)
  | [] => some []
  | a :: l =>
    match f a, optTraverse f l with
    | some b, some bs => some (b :: bs)
    | _, _ => none

/-- Python `range(size)` for an `int` argument (empty for nonpositive sizes). -/
def pyRange (size : ℤ) : List ℤ :=
  (List.range size.toNat).map Int.ofNat

/-- Method `generate_lut`: `size` samples of `interpolate` at
`i / (size-1) * 100`; `none` models the ZeroDivisionError raised at
`size = 1`. -/
def generate_lut (sq : ℚ → ℚ) (c : ChannelCalibration) (size : ℤ) : Option (List ℤ) :=
  optTraverse
    (fun (i : ℤ) => (pyDiv (i : ℚ) ((size : ℚ) - 1)).map (fun q => interpolate sq c (q * 100)))
    (pyRange size)

/-- Decimal string: sign flag and base-10 digits, least significant first
(the shallow model of Python str contents that `int(...)` can parse). -/
structure DecStr where
  neg : Bool
  digits : List ℕ
deriving DecidableEq

/-- Python `str(k)` for an integer `k`, as a `DecStr`. -/
def intToDecStr (k : ℤ) : DecStr :=
  { neg := decide (k < 0), digits := Nat.digits 10 k.natAbs }

/-- Python `int(s)` on a decimal string. -/
def decStrToInt (s : DecStr) : ℤ :=
  (if s.neg then -1 else 1) * ((Nat.ofDigits 10 s.digits : ℕ) : ℤ)

/-- A serialized points key: a decimal string or a plain integer. -/
inductive DictKey where
  | str (s : DecStr)
  | int (k : ℤ)
deriving DecidableEq

/-- Python `int(k)` on a serialized key: parse a string, pass an integer. -/
def keyToInt : DictKey → ℤ
  | DictKey.str s => decStrToInt s
  | DictKey.int k => k

/-- The snapshot record produced and consumed at the persistence boundary;
every field may be absent. -/
structure CalDict where
  name : Option String
  threshold : Option ℤ
  use_smooth : Option Bool
  points : Option (List (DictKey × ℤ))
deriving DecidableEq

/-- Method `to_dict`: serialize name, threshold, mode, and the points with
stringified keys. -/
def to_dict (c : ChannelCalibration) : CalDict :=
  { name := some c.name
    threshold := some c.threshold
    use_smooth := some c.use_smooth
    points := some (c.points.map (fun kv => (DictKey.str (intToDecStr kv.1), kv.2))) }

/-- Method `from_dict`: each field falls back to a default when absent
(`name` to the current name, `threshold` to 0, `use_smooth` to true, `points`
to the empty mapping); point keys are coerced with `int(...)`. The dict
comprehension is a left fold of insert-or-overwrite. -/
def from_dict (c : ChannelCalibration) (data : CalDict) : ChannelCalibration :=
  { name := data.name.getD c.name
    threshold := data.threshold.getD 0
    use_smooth := data.use_smooth.getD true
    points :=
      (data.points.getD []).foldl (fun acc kv => dictSet acc (keyToInt kv.1) kv.2) [] }

/-! ### Derived predicates, views and fixtures -/

/-- Validity of a stored curve: all drive-values lie in the 0..PWM_MAX domain. -/
def ValsRange (c : ChannelCalibration) : Prop :=
  ∀ kv ∈ c.points, 0 ≤ kv.2 ∧ kv.2 ≤ PWM_MAX

/-- The stored drive-values are non-decreasing as a function of the percent key. -/
def ValsMono (c : ChannelCalibration) : Prop :=
  ∀ kv1 ∈ c.points, ∀ kv2 ∈ c.points, kv1.1 ≤ kv2.1 → kv1.2 ≤ kv2.2

/-- The cubic Hermite basis evaluation used by `interpolate_smooth`. -/
def hermiteH (x0v x1v y0v y1v m0 m1 p : ℚ) : ℚ :=
  let h := x1v - x0v
  let t := if h ≠ 0 then (p - x0v) / h else 0
  let t2 := t * t
  let t3 := t2 * t
  (2 * t3 - 3 * t2 + 1) * y0v + (t3 - 2 * t2 + t) * h * m0 +
    (-2 * t3 + 3 * t2) * y1v + (t3 - t2) * h * m1

/-- The per-segment clamp of `interpolate_smooth`. -/
def clampSeg (y0v y1v r : ℚ) : ℚ := max (min y0v y1v) (min (max y0v y1v) r)

/-- The global clamp of `interpolate_smooth`. -/
def clampGlobal (r : ℚ) : ℚ := max 0 (min (PWM_MAX : ℚ) r)

/-- Invariant carried through the tangent-limiting pass: the list has one entry
per node, every tangent is nonnegative, and each tangent is at most twice each
adjacent secant slope. -/
def TangentInv (d t : List ℚ) : Prop :=
  t.length = d.length + 1 ∧
  ∀ i : ℕ, 0 ≤ t.getD i 0 ∧ (i < d.length → t.getD i 0 ≤ 2 * d.getD i 0) ∧
    (1 ≤ i → t.getD i 0 ≤ 2 * d.getD (i - 1) 0)

/-- The sorted (key, value) nodes of a curve, as read by `interpolate_smooth`. -/
def curveNodes (c : ChannelCalibration) : List (ℤ × ℤ) :=
  (get_sorted_percents c).map (fun k => (k, dictGetD c.points k 0))

/-- The secant slopes of a curve. -/
def curveDeltas (c : ChannelCalibration) : List ℚ := deltasOf (curveNodes c)

/-- The limited tangents of a curve. -/
def curveTangents (sq : ℚ → ℚ) (c : ChannelCalibration) : List ℚ :=
  limitTangents sq (curveNodes c).length (curveDeltas c) (initTangents (curveDeltas c))

/-- The segment index located by `interpolate_smooth` for a query. -/
def segIdx (c : ChannelCalibration) (p : ℚ) : ℕ :=
  (segLoop p (get_sorted_percents c) 0).getD 0

/-- Sorted key `j` of a curve, as a rational. -/
def XQ (c : ChannelCalibration) (j : ℕ) : ℚ := ((get_sorted_percents c).getD j 0 : ℚ)

/-- Stored value at sorted key `j` of a curve, as a rational. -/
def YQ (c : ChannelCalibration) (j : ℕ) : ℚ :=
  (dictGetD c.points ((get_sorted_percents c).getD j 0) 0 : ℚ)

/-- Limited tangent at node `j` of a curve. -/
def MQ (sq : ℚ → ℚ) (c : ChannelCalibration) (j : ℕ) : ℚ := (curveTangents sq c).getD j 0

/-- Secant slope of segment `j` of a curve. -/
def DQ (c : ChannelCalibration) (j : ℕ) : ℚ := (curveDeltas c).getD j 0

/-! ### Concrete fixtures used by witnesses and counterexamples -/

/-- A concrete square-root stand-in used to instantiate witnesses; every theorem
quantifies over all such functions. -/
def sqZero : ℚ → ℚ := fun _ => 0

/-- The default curve with a threshold of 1000, as in the spec scenario. -/
def thrCurve : ChannelCalibration :=
  { initCalibration "ch" with threshold := 1000 }

/-- The default curve switched to linear mode. -/
def linCurve : ChannelCalibration :=
  { initCalibration "ch" with use_smooth := false }

/-- A linear-mode curve witnessing that the code truncates rather than rounds:
between keys 0 and 3 (values 0 and 5) at percent 1 the exact blend is 5/3. -/
def cexCurve : ChannelCalibration :=
  { name := "cex", threshold := 0, use_smooth := false,
    points := [(0, 0), (3, 5), (100, 65535)] }

/-- One user-level mutation of a curve, as exposed by the point-management API. -/
inductive CalOp where
  | setp (percent pwm : ℤ)
  | removep (percent : ℤ)
  | insertp (lower upper : ℤ)
deriving DecidableEq

/-- Apply one mutation to a curve. -/
def applyOp (c : ChannelCalibration) : CalOp → ChannelCalibration
  | CalOp.setp percent pwm => set_point c percent pwm
  | CalOp.removep percent => remove_point c percent
  | CalOp.insertp lower upper => (add_point_between c lower upper).2

/-! ### Truncation lemmas -/

theorem pyTrunc_eq_floor {q : ℚ} (h : 0 ≤ q) : pyTrunc q = ⌊q⌋ := by
  unfold pyTrunc
  rw [Rat.floor_def]
  exact Int.tdiv_eq_ediv (Rat.num_nonneg.mpr h) (by positivity)

theorem pyTrunc_eq_ceil {q : ℚ} (h : q ≤ 0) : pyTrunc q = ⌈q⌉ := by
  unfold pyTrunc
  have hnum : 0 ≤ (-q).num := Rat.num_nonneg.mpr (by linarith)
  have hden : ((-q).den : ℤ) = (q.den : ℤ) := by rw [Rat.neg_den]
  have hneg : (-q).num = -q.num := Rat.neg_num q
  have h1 : (-q).num.tdiv (-q).den = (-q).num / ((-q).den : ℤ) :=
    Int.tdiv_eq_ediv hnum (by positivity)
  have h2 : ⌊-q⌋ = (-q).num / ((-q).den : ℤ) := Rat.floor_def
  have h3 : q.num.tdiv q.den = -((-q).num.tdiv (-q).den) := by
    rw [hneg, hden, Int.neg_tdiv, neg_neg]
  rw [h3, h1, ← h2, ← Int.ceil_neg, neg_neg]

theorem pyTrunc_intCast (k : ℤ) : pyTrunc (k : ℚ) = k := by
  rcases le_or_lt 0 (k : ℚ) with h | h
  · rw [pyTrunc_eq_floor h, Int.floor_intCast]
  · rw [pyTrunc_eq_ceil h.le, Int.ceil_intCast]

theorem pyTrunc_mono {p q : ℚ} (h : p ≤ q) : pyTrunc p ≤ pyTrunc q := by
  rcases le_or_lt 0 p with hp | hp
  · rw [pyTrunc_eq_floor hp, pyTrunc_eq_floor (hp.trans h)]
    exact Int.floor_le_floor h
  · rcases le_or_lt 0 q with hq | hq
    · rw [pyTrunc_eq_ceil hp.le, pyTrunc_eq_floor hq]
      calc ⌈p⌉ ≤ 0 := Int.ceil_le.mpr (by exact_mod_cast hp.le)
        _ ≤ ⌊q⌋ := Int.floor_nonneg.mpr hq
    · rw [pyTrunc_eq_ceil hp.le, pyTrunc_eq_ceil hq.le]
      exact Int.ceil_le_ceil h

theorem le_pyTrunc {m : ℤ} {q : ℚ} (h : (m : ℚ) ≤ q) (h0 : 0 ≤ m) : m ≤ pyTrunc q := by
  have hq : 0 ≤ q := le_trans (by exact_mod_cast h0) h
  rw [pyTrunc_eq_floor hq]
  exact Int.le_floor.mpr h

theorem pyTrunc_le {m : ℤ} {q : ℚ} (h : q ≤ (m : ℚ)) : pyTrunc q ≤ m := by
  rcases le_or_lt 0 q with hq | hq
  · rw [pyTrunc_eq_floor hq]
    calc ⌊q⌋ ≤ ⌊(m : ℚ)⌋ := Int.floor_le_floor h
      _ = m := Int.floor_intCast m
  · rw [pyTrunc_eq_ceil hq.le]
    exact Int.ceil_le.mpr h

theorem pyTrunc_nonneg {q : ℚ} (h : 0 ≤ q) : 0 ≤ pyTrunc q :=
  le_pyTrunc (by exact_mod_cast h) le_rfl

/-! ### Sorted-key and dictionary lemmas -/

theorem sorted_percents_sorted (c : ChannelCalibration) :
    List.Sorted (· ≤ ·) (get_sorted_percents c) :=
  List.sorted_insertionSort _ _

theorem sorted_percents_perm (c : ChannelCalibration) :
    (get_sorted_percents c).Perm (c.points.map Prod.fst) :=
  List.perm_insertionSort _ _

theorem mem_sorted_percents {c : ChannelCalibration} {k : ℤ} :
    k ∈ get_sorted_percents c ↔ k ∈ c.points.map Prod.fst :=
  (sorted_percents_perm c).mem_iff

theorem sorted_percents_nodup {c : ChannelCalibration}
    (h : (c.points.map Prod.fst).Nodup) : (get_sorted_percents c).Nodup :=
  ((sorted_percents_perm c).nodup_iff).mpr h

theorem sorted_percents_strict {c : ChannelCalibration}
    (h : (c.points.map Prod.fst).Nodup) :
    List.Pairwise (· < ·) (get_sorted_percents c) := by
  have h1 : List.Pairwise (· ≤ ·) (get_sorted_percents c) := sorted_percents_sorted c
  have h2 : List.Pairwise (· ≠ ·) (get_sorted_percents c) := sorted_percents_nodup h
  exact (h1.and h2).imp (fun hab => lt_of_le_of_ne hab.1 hab.2)

theorem dictGet?_mem {pts : List (ℤ × ℤ)} {k v : ℤ} (h : dictGet? pts k = some v) :
    (k, v) ∈ pts := by
  unfold dictGet? at h
  rcases Option.map_eq_some'.mp h with ⟨kv, hfind, hv⟩
  have hk0 := List.find?_some hfind
  have hk : kv.1 = k := by simpa using hk0
  have hmem : kv ∈ pts := List.mem_of_find?_eq_some hfind
  have : (k, v) = kv := by
    cases kv
    simp only [Prod.mk.injEq]
    exact ⟨hk.symm, hv.symm⟩
  rwa [this]

theorem dictGet?_isSome_of_mem {pts : List (ℤ × ℤ)} {k : ℤ}
    (h : k ∈ pts.map Prod.fst) : (dictGet? pts k).isSome := by
  rcases List.mem_map.mp h with ⟨kv, hmem, hk⟩
  unfold dictGet?
  rw [Option.isSome_map']
  exact List.find?_isSome.mpr ⟨kv, hmem, by simpa using hk⟩

theorem dictGetD_mem {pts : List (ℤ × ℤ)} {k : ℤ} (d : ℤ)
    (h : k ∈ pts.map Prod.fst) : (k, dictGetD pts k d) ∈ pts := by
  have hs := dictGet?_isSome_of_mem h
  rcases Option.isSome_iff_exists.mp hs with ⟨v, hv⟩
  have : dictGetD pts k d = v := by rw [dictGetD, hv]; rfl
  rw [this]
  exact dictGet?_mem hv

theorem valAt_range {c : ChannelCalibration} (hr : ValsRange c) {k : ℤ}
    (h : k ∈ get_sorted_percents c) :
    0 ≤ dictGetD c.points k 0 ∧ dictGetD c.points k 0 ≤ PWM_MAX :=
  hr _ (dictGetD_mem 0 (mem_sorted_percents.mp h))

theorem valAt_mono {c : ChannelCalibration} (hm : ValsMono c) {k1 k2 : ℤ}
    (h1 : k1 ∈ get_sorted_percents c) (h2 : k2 ∈ get_sorted_percents c)
    (h12 : k1 ≤ k2) : dictGetD c.points k1 0 ≤ dictGetD c.points k2 0 :=
  hm _ (dictGetD_mem 0 (mem_sorted_percents.mp h1))
    _ (dictGetD_mem 0 (mem_sorted_percents.mp h2)) h12

/-! ### Generic list-order helpers -/

theorem getLastD_mem_of_ne_nil {l : List ℤ} {d : ℤ} (h : l ≠ []) : l.getLastD d ∈ l := by
  induction l with
  | nil => exact absurd rfl h
  | cons a l ih =>
    cases l with
    | nil => simp [List.getLastD]
    | cons b l2 =>
      have := ih (by simp)
      simp only [List.getLastD] at this ⊢
      exact List.mem_cons_of_mem a this

theorem head_le_of_sorted {a k : ℤ} {l : List ℤ} (hs : List.Sorted (· ≤ ·) (a :: l))
    (hk : k ∈ a :: l) : a ≤ k := by
  rcases List.mem_cons.mp hk with h | h
  · simp [h]
  · exact (List.sorted_cons.mp hs).1 k h

theorem getLastD_eq_getD {l : List ℤ} {d : ℤ} :
    l.getLastD d = l.getD (l.length - 1) d := by
  rw [List.getLastD_eq_getLast?, List.getLast?_eq_getElem?, List.getD_eq_getElem?_getD]

theorem sorted_getD_le {l : List ℤ} (hs : List.Sorted (· ≤ ·) l) {i j : ℕ}
    (hij : i ≤ j) (hj : j < l.length) : l.getD i 0 ≤ l.getD j 0 := by
  rcases lt_or_eq_of_le hij with h | h
  · rw [List.getD_eq_getElem l 0 (h.trans hj), List.getD_eq_getElem l 0 hj]
    exact List.pairwise_iff_get.mp hs ⟨i, h.trans hj⟩ ⟨j, hj⟩ h
  · rw [h]

theorem le_getLastD_of_sorted {l : List ℤ} {d k : ℤ} (hs : List.Sorted (· ≤ ·) l)
    (hk : k ∈ l) : k ≤ l.getLastD d := by
  rcases List.mem_iff_get.mp hk with ⟨i, hget⟩
  have h1 : l.getD i.val 0 = k := by
    rw [List.getD_eq_getElem l 0 i.isLt, ← hget]
    rfl
  have h2 : l.getLastD d = l.getD (l.length - 1) d := getLastD_eq_getD
  have h3 : l.getD (l.length - 1) d = l.getD (l.length - 1) 0 := by
    have hlen : l.length - 1 < l.length := by
      rcases l with _ | ⟨a, l⟩
      · exact absurd hk (by simp)
      · simp
    rw [List.getD_eq_getElem l d hlen, List.getD_eq_getElem l 0 hlen]
  rw [h2, h3, ← h1]
  exact sorted_getD_le hs (by omega) (by
    rcases l with _ | ⟨a, l⟩
    · exact absurd hk (by simp)
    · simp)

theorem pairwise_getD_lt {l : List ℤ} (hs : List.Pairwise (· < ·) l) {i j : ℕ}
    (hij : i < j) (hj : j < l.length) : l.getD i 0 < l.getD j 0 := by
  rw [List.getD_eq_getElem l 0 (hij.trans hj), List.getD_eq_getElem l 0 hj]
  exact List.pairwise_iff_get.mp hs ⟨i, hij.trans hj⟩ ⟨j, hj⟩ hij

theorem pairwise_getD_le {l : List ℤ} (hs : List.Pairwise (· < ·) l) {i j : ℕ}
    (hij : i ≤ j) (hj : j < l.length) : l.getD i 0 ≤ l.getD j 0 := by
  rcases lt_or_eq_of_le hij with h | h
  · exact (pairwise_getD_lt hs h hj).le
  · rw [h]

theorem getLastD_cons_cons (a b : ℤ) (l : List ℤ) (d : ℤ) :
    (a :: b :: l).getLastD d = (b :: l).getLastD d := by
  simp [List.getLastD]

theorem mem_iff_getD {l : List ℤ} {k : ℤ} :
    k ∈ l ↔ ∃ j, j < l.length ∧ l.getD j 0 = k := by
  constructor
  · intro hk
    rcases List.mem_iff_get.mp hk with ⟨i, hget⟩
    exact ⟨i.val, i.isLt, by rw [List.getD_eq_getElem l 0 i.isLt, ← hget]; rfl⟩
  · rintro ⟨j, hj, hget⟩
    rw [List.getD_eq_getElem l 0 hj] at hget
    rw [← hget]
    exact List.getElem_mem hj

/-! ### The bracket search of `interpolate_linear` -/

theorem bracketLoop_spec {p : ℚ} :
    ∀ (rest : List ℤ) (a u0 : ℤ),
      (a : ℚ) < p → p < (((a :: rest).getLastD 0 : ℤ) : ℚ) →
      (∀ k ∈ a :: rest, ((k : ℤ) : ℚ) ≠ p) →
      List.Pairwise (· < ·) (a :: rest) →
      ∃ i, bracketLoop p rest a u0 =
          ((a :: rest).getD i 0, (a :: rest).getD (i + 1) 0) ∧
        i + 1 < (a :: rest).length ∧
        (((a :: rest).getD i 0 : ℤ) : ℚ) < p ∧
        p < (((a :: rest).getD (i + 1) 0 : ℤ) : ℚ) := by
  intro rest
  induction rest with
  | nil =>
    intro a u0 ha hlast _ _
    exact absurd (ha.trans hlast) (by simp [List.getLastD])
  | cons b rest2 ih =>
    intro a u0 ha hlast hne hpw
    rw [bracketLoop]
    rcases lt_trichotomy ((b : ℤ) : ℚ) p with hb | hb | hb
    · rw [if_pos hb]
      have hlast2 : p < (((b :: rest2).getLastD 0 : ℤ) : ℚ) := by
        rwa [getLastD_cons_cons] at hlast
      rcases ih b u0 hb hlast2 (fun k hk => hne k (List.mem_cons_of_mem a hk))
          (List.pairwise_cons.mp hpw).2 with ⟨i, heq, hlen, hlo, hhi⟩
      refine ⟨i + 1, ?_, by simpa using hlen, ?_, ?_⟩
      · rw [heq]
        rfl
      · simpa using hlo
      · simpa using hhi
    · exact absurd hb (hne b (by simp))
    · rw [if_neg (by push_neg; exact hb.le), if_pos hb]
      exact ⟨0, rfl, by simp, ha, hb⟩

theorem bracketLoop_congr {p q : ℚ} (hpq : p ≤ q) :
    ∀ (xs : List ℤ) (l u : ℤ),
      (∀ k ∈ xs, ¬(p ≤ ((k : ℤ) : ℚ) ∧ ((k : ℤ) : ℚ) ≤ q)) →
      bracketLoop p xs l u = bracketLoop q xs l u := by
  intro xs
  induction xs with
  | nil => intro l u _; rfl
  | cons x rest ih =>
    intro l u hgap
    have hx := hgap x (by simp)
    rw [bracketLoop, bracketLoop]
    rcases lt_or_le ((x : ℤ) : ℚ) p with hxp | hxp
    · rw [if_pos hxp, if_pos (hxp.trans_le hpq)]
      exact ih x u (fun k hk => hgap k (List.mem_cons_of_mem x hk))
    · have hxq : q < ((x : ℤ) : ℚ) := by
        by_contra hc
        push_neg at hc
        exact hx ⟨hxp, hc⟩
      have hpx : p < ((x : ℤ) : ℚ) :=
        lt_of_le_of_ne hxp (fun h => absurd hpq (not_le.mpr (h ▸ hxq)))
      rw [if_neg (not_lt.mpr hxp), if_pos hpx, if_neg (not_lt.mpr hxq.le), if_pos hxq]

/-! ### Bounds for `interpolate_linear` against stored points -/

theorem lin_lower_bound {c : ChannelCalibration} (hnd : (c.points.map Prod.fst).Nodup)
    (hmono : ValsMono c) (hrange : ValsRange c) {p : ℚ} {k : ℤ}
    (hk : k ∈ get_sorted_percents c) (hkp : (k : ℚ) ≤ p) :
    dictGetD c.points k 0 ≤ interpolate_linear c p := by
  rcases hxs : get_sorted_percents c with _ | ⟨x0, rest⟩
  · rw [hxs] at hk
    simp at hk
  have hsor : List.Sorted (· ≤ ·) (x0 :: rest) := hxs ▸ sorted_percents_sorted c
  have hstrict : List.Pairwise (· < ·) (x0 :: rest) := hxs ▸ sorted_percents_strict hnd
  have hkmem : k ∈ x0 :: rest := hxs ▸ hk
  have hx0mem : x0 ∈ get_sorted_percents c := by rw [hxs]; simp
  have hxlmem : (x0 :: rest).getLastD 0 ∈ get_sorted_percents c := by
    rw [hxs]
    exact getLastD_mem_of_ne_nil (by simp)
  unfold interpolate_linear
  rw [hxs]
  by_cases h1 : p ≤ (x0 : ℚ)
  · simp only [if_pos h1]
    have hkx0 : k = x0 := le_antisymm (by exact_mod_cast hkp.trans h1)
      (head_le_of_sorted hsor hkmem)
    rw [hkx0]
  · simp only [if_neg h1]
    push_neg at h1
    by_cases h2 : (((x0 :: rest).getLastD 0 : ℤ) : ℚ) ≤ p
    · simp only [if_pos h2]
      exact valAt_mono hmono hk hxlmem (le_getLastD_of_sorted hsor hkmem)
    · simp only [if_neg h2]
      push_neg at h2
      rcases hfind : (x0 :: rest).find? (fun (m : ℤ) => decide ((m : ℚ) = p)) with _ | k0
      · have hnone : ∀ m ∈ x0 :: rest, ((m : ℤ) : ℚ) ≠ p := by
          intro m hm
          have := List.find?_eq_none.mp hfind m hm
          simpa using this
        have hloop1 : bracketLoop p (x0 :: rest) x0 ((x0 :: rest).getLastD 0) =
            bracketLoop p rest x0 ((x0 :: rest).getLastD 0) := by
          rw [bracketLoop, if_pos h1]
        rcases bracketLoop_spec rest x0 ((x0 :: rest).getLastD 0) h1 h2 hnone hstrict
          with ⟨i, heq, hlen, hlo, hhi⟩
        rw [hloop1, heq]
        set xi := (x0 :: rest).getD i 0 with hxi
        set xu := (x0 :: rest).getD (i + 1) 0 with hxu
        have hximem : xi ∈ get_sorted_percents c := by
          rw [hxs]
          exact mem_iff_getD.mpr ⟨i, by omega, rfl⟩
        have hxumem : xu ∈ get_sorted_percents c := by
          rw [hxs]
          exact mem_iff_getD.mpr ⟨i + 1, hlen, rfl⟩
        have hxixu : xi < xu := by exact_mod_cast hlo.trans hhi
        have hne2 : ¬(xu = xi) := by omega
        simp only [if_neg hne2]
        have hyly : dictGetD c.points xi 0 ≤ dictGetD c.points xu 0 :=
          valAt_mono hmono hximem hxumem hxixu.le
        have hden : (0 : ℚ) < (xu : ℚ) - (xi : ℚ) := by
          rw [sub_pos]
          exact_mod_cast hxixu
        have ht0 : 0 ≤ (p - (xi : ℚ)) / ((xu : ℚ) - (xi : ℚ)) :=
          div_nonneg (by linarith) hden.le
        have hval : ((dictGetD c.points xi 0 : ℤ) : ℚ) ≤
            (dictGetD c.points xi 0 : ℚ) +
              (p - (xi : ℚ)) / ((xu : ℚ) - (xi : ℚ)) *
                ((dictGetD c.points xu 0 : ℚ) - (dictGetD c.points xi 0 : ℚ)) := by
          have : (0 : ℚ) ≤ (dictGetD c.points xu 0 : ℚ) - (dictGetD c.points xi 0 : ℚ) := by
            rw [sub_nonneg]
            exact_mod_cast hyly
          nlinarith
        have hylk : dictGetD c.points k 0 ≤ dictGetD c.points xi 0 := by
          rcases mem_iff_getD.mp hkmem with ⟨j, hj, hgj⟩
          have hji : j ≤ i := by
            by_contra hc
            push_neg at hc
            have : xu ≤ (x0 :: rest).getD j 0 := pairwise_getD_le hstrict hc hj
            rw [hgj] at this
            have hkp2 : (k : ℚ) < p := lt_of_le_of_ne hkp (hnone k hkmem)
            have : (xu : ℚ) ≤ (k : ℚ) := by exact_mod_cast this
            linarith
          have : (x0 :: rest).getD j 0 ≤ xi := pairwise_getD_le hstrict hji (by omega)
          rw [hgj] at this
          exact valAt_mono hmono hk hximem this
        refine le_trans hylk (le_pyTrunc hval ?_)
        exact (valAt_range hrange hximem).1
      · have hk0 := List.find?_some hfind
        have hk0p : ((k0 : ℤ) : ℚ) = p := by simpa using hk0
        have hk0mem : k0 ∈ get_sorted_percents c := by
          rw [hxs]
          exact List.mem_of_find?_eq_some hfind
        exact valAt_mono hmono hk hk0mem (by exact_mod_cast hkp.trans_eq hk0p.symm)

theorem lin_upper_bound {c : ChannelCalibration} (hnd : (c.points.map Prod.fst).Nodup)
    (hmono : ValsMono c) (_hrange : ValsRange c) {p : ℚ} {k : ℤ}
    (hk : k ∈ get_sorted_percents c) (hkp : p ≤ (k : ℚ)) :
    interpolate_linear c p ≤ dictGetD c.points k 0 := by
  rcases hxs : get_sorted_percents c with _ | ⟨x0, rest⟩
  · rw [hxs] at hk
    simp at hk
  have hsor : List.Sorted (· ≤ ·) (x0 :: rest) := hxs ▸ sorted_percents_sorted c
  have hstrict : List.Pairwise (· < ·) (x0 :: rest) := hxs ▸ sorted_percents_strict hnd
  have hkmem : k ∈ x0 :: rest := hxs ▸ hk
  have hx0mem : x0 ∈ get_sorted_percents c := by rw [hxs]; simp
  have hxlmem : (x0 :: rest).getLastD 0 ∈ get_sorted_percents c := by
    rw [hxs]
    exact getLastD_mem_of_ne_nil (by simp)
  unfold interpolate_linear
  rw [hxs]
  by_cases h1 : p ≤ (x0 : ℚ)
  · simp only [if_pos h1]
    exact valAt_mono hmono hx0mem hk (head_le_of_sorted hsor hkmem)
  · simp only [if_neg h1]
    push_neg at h1
    by_cases h2 : (((x0 :: rest).getLastD 0 : ℤ) : ℚ) ≤ p
    · simp only [if_pos h2]
      have hkxl : k = (x0 :: rest).getLastD 0 := le_antisymm
        (le_getLastD_of_sorted hsor hkmem) (by exact_mod_cast h2.trans hkp)
      rw [hkxl]
    · simp only [if_neg h2]
      push_neg at h2
      rcases hfind : (x0 :: rest).find? (fun (m : ℤ) => decide ((m : ℚ) = p)) with _ | k0
      · have hnone : ∀ m ∈ x0 :: rest, ((m : ℤ) : ℚ) ≠ p := by
          intro m hm
          have := List.find?_eq_none.mp hfind m hm
          simpa using this
        have hloop1 : bracketLoop p (x0 :: rest) x0 ((x0 :: rest).getLastD 0) =
            bracketLoop p rest x0 ((x0 :: rest).getLastD 0) := by
          rw [bracketLoop, if_pos h1]
        rcases bracketLoop_spec rest x0 ((x0 :: rest).getLastD 0) h1 h2 hnone hstrict
          with ⟨i, heq, hlen, hlo, hhi⟩
        rw [hloop1, heq]
        set xi := (x0 :: rest).getD i 0 with hxi
        set xu := (x0 :: rest).getD (i + 1) 0 with hxu
        have hximem : xi ∈ get_sorted_percents c := by
          rw [hxs]
          exact mem_iff_getD.mpr ⟨i, by omega, rfl⟩
        have hxumem : xu ∈ get_sorted_percents c := by
          rw [hxs]
          exact mem_iff_getD.mpr ⟨i + 1, hlen, rfl⟩
        have hxixu : xi < xu := by exact_mod_cast hlo.trans hhi
        have hne2 : ¬(xu = xi) := by omega
        simp only [if_neg hne2]
        have hyly : dictGetD c.points xi 0 ≤ dictGetD c.points xu 0 :=
          valAt_mono hmono hximem hxumem hxixu.le
        have hden : (0 : ℚ) < (xu : ℚ) - (xi : ℚ) := by
          rw [sub_pos]
          exact_mod_cast hxixu
        have ht1 : (p - (xi : ℚ)) / ((xu : ℚ) - (xi : ℚ)) ≤ 1 := by
          rw [div_le_one hden]
          linarith
        have hval : (dictGetD c.points xi 0 : ℚ) +
            (p - (xi : ℚ)) / ((xu : ℚ) - (xi : ℚ)) *
              ((dictGetD c.points xu 0 : ℚ) - (dictGetD c.points xi 0 : ℚ)) ≤
            ((dictGetD c.points xu 0 : ℤ) : ℚ) := by
          have hdy : (0 : ℚ) ≤ (dictGetD c.points xu 0 : ℚ) - (dictGetD c.points xi 0 : ℚ) := by
            rw [sub_nonneg]
            exact_mod_cast hyly
          nlinarith
        have hyuk : dictGetD c.points xu 0 ≤ dictGetD c.points k 0 := by
          rcases mem_iff_getD.mp hkmem with ⟨j, hj, hgj⟩
          have hji : i + 1 ≤ j := by
            by_contra hc
            push_neg at hc
            have : (x0 :: rest).getD j 0 ≤ xi := pairwise_getD_le hstrict (by omega) (by omega)
            rw [hgj] at this
            have hkp2 : p < (k : ℚ) := lt_of_le_of_ne hkp (fun h => (hnone k hkmem) h.symm)
            have : (k : ℚ) ≤ (xi : ℚ) := by exact_mod_cast this
            linarith
          have : xu ≤ (x0 :: rest).getD j 0 := pairwise_getD_le hstrict hji hj
          rw [hgj] at this
          exact valAt_mono hmono hxumem hk this
        exact le_trans (pyTrunc_le hval) hyuk
      · have hk0 := List.find?_some hfind
        have hk0p : ((k0 : ℤ) : ℚ) = p := by simpa using hk0
        have hk0mem : k0 ∈ get_sorted_percents c := by
          rw [hxs]
          exact List.mem_of_find?_eq_some hfind
        exact valAt_mono hmono hk0mem hk (by exact_mod_cast hk0p.trans_le hkp)

/-- When `percent` lies strictly between the consecutive sorted keys at indices
`i` and `i+1`, `interpolate_linear` returns exactly the truncated linear blend
between the stored values at those keys. -/
theorem lin_bracket_eq {c : ChannelCalibration} (hnd : (c.points.map Prod.fst).Nodup)
    {x0 : ℤ} {rest : List ℤ} (hxs : get_sorted_percents c = x0 :: rest) {p : ℚ} {i : ℕ}
    (hilen : i + 1 < (x0 :: rest).length)
    (hlo : (((x0 :: rest).getD i 0 : ℤ) : ℚ) < p)
    (hhi : p < (((x0 :: rest).getD (i + 1) 0 : ℤ) : ℚ)) :
    interpolate_linear c p =
      pyTrunc ((dictGetD c.points ((x0 :: rest).getD i 0) 0 : ℚ) +
        (p - (((x0 :: rest).getD i 0 : ℤ) : ℚ)) /
            ((((x0 :: rest).getD (i + 1) 0 : ℤ) : ℚ) - (((x0 :: rest).getD i 0 : ℤ) : ℚ)) *
          ((dictGetD c.points ((x0 :: rest).getD (i + 1) 0) 0 : ℚ) -
            (dictGetD c.points ((x0 :: rest).getD i 0) 0 : ℚ))) := by
  have hstrict : List.Pairwise (· < ·) (x0 :: rest) := hxs ▸ sorted_percents_strict hnd
  set xs := x0 :: rest with hxsdef
  have hx0i : x0 ≤ xs.getD i 0 := by
    have h00 : xs.getD 0 0 = x0 := rfl
    have := pairwise_getD_le hstrict (Nat.zero_le i) (show i < xs.length by omega)
    rwa [h00] at this
  have h1 : ¬(p ≤ (x0 : ℚ)) := by
    push_neg
    calc (x0 : ℚ) ≤ (xs.getD i 0 : ℚ) := by exact_mod_cast hx0i
      _ < p := hlo
  have hxl : xs.getD (i + 1) 0 ≤ xs.getLastD 0 := by
    rw [getLastD_eq_getD]
    exact pairwise_getD_le hstrict (by omega) (by omega)
  have h2 : ¬((xs.getLastD 0 : ℚ) ≤ p) := by
    push_neg
    calc p < (xs.getD (i + 1) 0 : ℚ) := hhi
      _ ≤ (xs.getLastD 0 : ℚ) := by exact_mod_cast hxl
  have hnone : ∀ m ∈ xs, ((m : ℤ) : ℚ) ≠ p := by
    intro m hm
    rcases mem_iff_getD.mp hm with ⟨j, hj, hgj⟩
    rcases le_or_lt j i with hji | hji
    · have : xs.getD j 0 ≤ xs.getD i 0 := pairwise_getD_le hstrict hji (by omega)
      rw [hgj] at this
      have : (m : ℚ) ≤ (xs.getD i 0 : ℚ) := by exact_mod_cast this
      intro hc
      rw [hc] at this
      linarith
    · have : xs.getD (i + 1) 0 ≤ xs.getD j 0 := pairwise_getD_le hstrict hji hj
      rw [hgj] at this
      have : (xs.getD (i + 1) 0 : ℚ) ≤ (m : ℚ) := by exact_mod_cast this
      intro hc
      rw [hc] at this
      linarith
  have hfind : xs.find? (fun (m : ℤ) => decide ((m : ℚ) = p)) = none := by
    rw [List.find?_eq_none]
    intro m hm
    simpa using hnone m hm
  rcases bracketLoop_spec rest x0 (xs.getLastD 0) (by push_neg at h1; exact h1)
      (by push_neg at h2; exact h2) hnone hstrict with ⟨i0, heq, hlen0, hlo0, hhi0⟩
  rw [← hxsdef] at hlen0 hlo0 hhi0
  have hii : i0 = i := by
    by_contra hc
    rcases Nat.lt_or_ge i0 i with h | h
    · have : xs.getD (i0 + 1) 0 ≤ xs.getD i 0 := pairwise_getD_le hstrict (by omega) (by omega)
      have hq : (xs.getD (i0 + 1) 0 : ℚ) ≤ (xs.getD i 0 : ℚ) := by exact_mod_cast this
      linarith
    · have hgt : i < i0 := by omega
      have : xs.getD (i + 1) 0 ≤ xs.getD i0 0 := pairwise_getD_le hstrict (by omega) (by omega)
      have hq : (xs.getD (i + 1) 0 : ℚ) ≤ (xs.getD i0 0 : ℚ) := by exact_mod_cast this
      linarith
  unfold interpolate_linear
  rw [hxs]
  simp only [if_neg h1, if_neg h2]
  rw [hfind]
  have hloop1 : bracketLoop p (x0 :: rest) x0 ((x0 :: rest).getLastD 0) =
      bracketLoop p rest x0 ((x0 :: rest).getLastD 0) := by
    rw [bracketLoop, if_pos (by push_neg at h1; exact h1)]
  rw [hloop1, heq, hii]
  have hne2 : ¬(xs.getD (i + 1) 0 = xs.getD i 0) := by
    have : (xs.getD i 0 : ℚ) < (xs.getD (i + 1) 0 : ℚ) := hlo.trans hhi
    have : xs.getD i 0 < xs.getD (i + 1) 0 := by exact_mod_cast this
    omega
  simp only [if_neg hne2]

/-- Monotonicity of `interpolate_linear` in the queried percent, for curves with
unique keys, monotone stored values and in-range stored values. -/
theorem lin_mono {c : ChannelCalibration} (hnd : (c.points.map Prod.fst).Nodup)
    (hmono : ValsMono c) (hrange : ValsRange c) {p q : ℚ} (hpq : p ≤ q) :
    interpolate_linear c p ≤ interpolate_linear c q := by
  by_cases hbridge : ∃ k ∈ get_sorted_percents c, p ≤ (k : ℚ) ∧ (k : ℚ) ≤ q
  · rcases hbridge with ⟨k, hk, h1, h2⟩
    exact le_trans (lin_upper_bound hnd hmono hrange hk h1)
      (lin_lower_bound hnd hmono hrange hk h2)
  · push_neg at hbridge
    rcases hxs : get_sorted_percents c with _ | ⟨x0, rest⟩
    · unfold interpolate_linear
      rw [hxs]
    have hstrict : List.Pairwise (· < ·) (x0 :: rest) := hxs ▸ sorted_percents_strict hnd
    have hgap : ∀ k ∈ x0 :: rest, p ≤ (k : ℚ) → q < (k : ℚ) := fun k hk hpk =>
      hbridge k (hxs ▸ hk) hpk
    by_cases h1 : p ≤ (x0 : ℚ)
    · have h1q : q < (x0 : ℚ) := hgap x0 (by simp) h1
      unfold interpolate_linear
      rw [hxs]
      simp only [if_pos h1, if_pos h1q.le]
      exact le_rfl
    · push_neg at h1
      have h1q : ¬(q ≤ (x0 : ℚ)) := by push_neg; exact h1.trans_le hpq
      by_cases h2 : ((x0 :: rest).getLastD 0 : ℚ) ≤ p
      · have h2q : ((x0 :: rest).getLastD 0 : ℚ) ≤ q := h2.trans hpq
        unfold interpolate_linear
        rw [hxs]
        simp only [if_neg (not_le.mpr h1), if_pos h2, if_neg h1q, if_pos h2q]
        exact le_rfl
      · push_neg at h2
        have h2q : q < ((x0 :: rest).getLastD 0 : ℚ) := by
          have hxlmem : (x0 :: rest).getLastD 0 ∈ x0 :: rest :=
            getLastD_mem_of_ne_nil (by simp)
          exact hgap _ hxlmem h2.le
        have hnone : ∀ m ∈ x0 :: rest, ((m : ℤ) : ℚ) ≠ p := by
          intro m hm hc
          have := hgap m hm (le_of_eq hc.symm)
          rw [hc] at this
          exact absurd hpq (not_le.mpr this)
        rcases bracketLoop_spec rest x0 ((x0 :: rest).getLastD 0) h1 h2 hnone hstrict
          with ⟨i, _, hlen, hlo, hhi⟩
        have hhiq : q < (((x0 :: rest).getD (i + 1) 0 : ℤ) : ℚ) :=
          hgap _ (mem_iff_getD.mpr ⟨i + 1, hlen, rfl⟩) hhi.le
        have hep := lin_bracket_eq hnd hxs hlen hlo hhi
        have heq2 := lin_bracket_eq hnd hxs hlen (hlo.trans_le hpq) hhiq
        rw [hep, heq2]
        apply pyTrunc_mono
        have hximem : (x0 :: rest).getD i 0 ∈ get_sorted_percents c := by
          rw [hxs]; exact mem_iff_getD.mpr ⟨i, by omega, rfl⟩
        have hxumem : (x0 :: rest).getD (i + 1) 0 ∈ get_sorted_percents c := by
          rw [hxs]; exact mem_iff_getD.mpr ⟨i + 1, hlen, rfl⟩
        have hxx : (((x0 :: rest).getD i 0 : ℤ) : ℚ) <
            (((x0 :: rest).getD (i + 1) 0 : ℤ) : ℚ) := hlo.trans hhi
        have hyy : dictGetD c.points ((x0 :: rest).getD i 0) 0 ≤
            dictGetD c.points ((x0 :: rest).getD (i + 1) 0) 0 := by
          refine valAt_mono hmono hximem hxumem ?_
          exact_mod_cast hxx.le
        have hden : (0 : ℚ) <
            (((x0 :: rest).getD (i + 1) 0 : ℤ) : ℚ) - (((x0 :: rest).getD i 0 : ℤ) : ℚ) := by
          linarith
        have hdy : (0 : ℚ) ≤
            (dictGetD c.points ((x0 :: rest).getD (i + 1) 0) 0 : ℚ) -
              (dictGetD c.points ((x0 :: rest).getD i 0) 0 : ℚ) := by
          rw [sub_nonneg]
          exact_mod_cast hyy
        have htle : (p - (((x0 :: rest).getD i 0 : ℤ) : ℚ)) /
              ((((x0 :: rest).getD (i + 1) 0 : ℤ) : ℚ) - (((x0 :: rest).getD i 0 : ℤ) : ℚ)) ≤
            (q - (((x0 :: rest).getD i 0 : ℤ) : ℚ)) /
              ((((x0 :: rest).getD (i + 1) 0 : ℤ) : ℚ) - (((x0 :: rest).getD i 0 : ℤ) : ℚ)) := by
          rw [div_eq_mul_inv, div_eq_mul_inv]
          exact mul_le_mul_of_nonneg_right (by linarith) (inv_nonneg.mpr hden.le)
        exact add_le_add_left (mul_le_mul_of_nonneg_right htle hdy) _

/-- The output of `interpolate_linear` stays inside the drive-value domain. -/
theorem lin_range {c : ChannelCalibration} (hnd : (c.points.map Prod.fst).Nodup)
    (hrange : ValsRange c) (p : ℚ) :
    0 ≤ interpolate_linear c p ∧ interpolate_linear c p ≤ PWM_MAX := by
  rcases hxs : get_sorted_percents c with _ | ⟨x0, rest⟩
  · unfold interpolate_linear
    rw [hxs]
    exact ⟨le_rfl, show (0 : ℤ) ≤ PWM_MAX by decide⟩
  have hstrict : List.Pairwise (· < ·) (x0 :: rest) := hxs ▸ sorted_percents_strict hnd
  have hx0mem : x0 ∈ get_sorted_percents c := by rw [hxs]; simp
  have hxlmem : (x0 :: rest).getLastD 0 ∈ get_sorted_percents c := by
    rw [hxs]
    exact getLastD_mem_of_ne_nil (by simp)
  unfold interpolate_linear
  rw [hxs]
  by_cases h1 : p ≤ (x0 : ℚ)
  · simp only [if_pos h1]
    exact valAt_range hrange hx0mem
  · simp only [if_neg h1]
    push_neg at h1
    by_cases h2 : (((x0 :: rest).getLastD 0 : ℤ) : ℚ) ≤ p
    · simp only [if_pos h2]
      exact valAt_range hrange hxlmem
    · simp only [if_neg h2]
      push_neg at h2
      rcases hfind : (x0 :: rest).find? (fun (m : ℤ) => decide ((m : ℚ) = p)) with _ | k0
      · have hnone : ∀ m ∈ x0 :: rest, ((m : ℤ) : ℚ) ≠ p := by
          intro m hm
          have := List.find?_eq_none.mp hfind m hm
          simpa using this
        have hloop1 : bracketLoop p (x0 :: rest) x0 ((x0 :: rest).getLastD 0) =
            bracketLoop p rest x0 ((x0 :: rest).getLastD 0) := by
          rw [bracketLoop, if_pos h1]
        rcases bracketLoop_spec rest x0 ((x0 :: rest).getLastD 0) h1 h2 hnone hstrict
          with ⟨i, heq, hlen, hlo, hhi⟩
        rw [hloop1, heq]
        have hximem : (x0 :: rest).getD i 0 ∈ get_sorted_percents c := by
          rw [hxs]; exact mem_iff_getD.mpr ⟨i, by omega, rfl⟩
        have hxumem : (x0 :: rest).getD (i + 1) 0 ∈ get_sorted_percents c := by
          rw [hxs]; exact mem_iff_getD.mpr ⟨i + 1, hlen, rfl⟩
        have hxixu : (x0 :: rest).getD i 0 < (x0 :: rest).getD (i + 1) 0 := by
          exact_mod_cast hlo.trans hhi
        have hne2 : ¬((x0 :: rest).getD (i + 1) 0 = (x0 :: rest).getD i 0) := by omega
        simp only [if_neg hne2]
        rcases valAt_range hrange hximem with ⟨hyl0, hylM⟩
        rcases valAt_range hrange hxumem with ⟨hyu0, hyuM⟩
        have hden : (0 : ℚ) <
            (((x0 :: rest).getD (i + 1) 0 : ℤ) : ℚ) - (((x0 :: rest).getD i 0 : ℤ) : ℚ) := by
          have : (((x0 :: rest).getD i 0 : ℤ) : ℚ) < (((x0 :: rest).getD (i + 1) 0 : ℤ) : ℚ) :=
            hlo.trans hhi
          linarith
        have ht0 : 0 ≤ (p - (((x0 :: rest).getD i 0 : ℤ) : ℚ)) /
            ((((x0 :: rest).getD (i + 1) 0 : ℤ) : ℚ) - (((x0 :: rest).getD i 0 : ℤ) : ℚ)) :=
          div_nonneg (by linarith) hden.le
        have ht1 : (p - (((x0 :: rest).getD i 0 : ℤ) : ℚ)) /
            ((((x0 :: rest).getD (i + 1) 0 : ℤ) : ℚ) - (((x0 :: rest).getD i 0 : ℤ) : ℚ)) ≤ 1 := by
          rw [div_le_one hden]
          linarith
        have hyl0q : (0 : ℚ) ≤ (dictGetD c.points ((x0 :: rest).getD i 0) 0 : ℚ) := by
          exact_mod_cast hyl0
        have hyu0q : (0 : ℚ) ≤ (dictGetD c.points ((x0 :: rest).getD (i + 1) 0) 0 : ℚ) := by
          exact_mod_cast hyu0
        have hylMq : (dictGetD c.points ((x0 :: rest).getD i 0) 0 : ℚ) ≤ (PWM_MAX : ℚ) := by
          exact_mod_cast hylM
        have hyuMq : (dictGetD c.points ((x0 :: rest).getD (i + 1) 0) 0 : ℚ) ≤ (PWM_MAX : ℚ) := by
          exact_mod_cast hyuM
        constructor
        · apply pyTrunc_nonneg
          nlinarith
        · apply pyTrunc_le
          nlinarith
      · have hk0mem : k0 ∈ get_sorted_percents c := by
          rw [hxs]
          exact List.mem_of_find?_eq_some hfind
        exact valAt_range hrange hk0mem

/-! ### Helper views of the smooth interpolator -/

theorem clampSeg_bounds (y0v y1v r : ℚ) :
    min y0v y1v ≤ clampSeg y0v y1v r ∧ clampSeg y0v y1v r ≤ max y0v y1v := by
  unfold clampSeg
  constructor
  · exact le_max_left _ _
  · exact max_le (le_trans (min_le_max) le_rfl) (min_le_left _ _)

theorem clampSeg_mono {y0v y1v r s : ℚ} (h : r ≤ s) :
    clampSeg y0v y1v r ≤ clampSeg y0v y1v s := by
  unfold clampSeg
  exact max_le_max le_rfl (min_le_min le_rfl h)

theorem clampGlobal_bounds (r : ℚ) :
    0 ≤ clampGlobal r ∧ clampGlobal r ≤ (PWM_MAX : ℚ) := by
  unfold clampGlobal
  refine ⟨le_max_left _ _, max_le (by norm_num [PWM_MAX]) (min_le_left _ _)⟩

theorem clampGlobal_mono {r s : ℚ} (h : r ≤ s) : clampGlobal r ≤ clampGlobal s :=
  max_le_max le_rfl (min_le_min le_rfl h)

theorem clampGlobal_id {r : ℚ} (h0 : 0 ≤ r) (h1 : r ≤ (PWM_MAX : ℚ)) :
    clampGlobal r = r := by
  unfold clampGlobal
  rw [min_eq_right h1, max_eq_right h0]

theorem getD_map_pair (c : ChannelCalibration) (xs : List ℤ) (j : ℕ) (hj : j < xs.length) :
    (xs.map (fun k => (k, dictGetD c.points k 0))).getD j (0, 0) =
      (xs.getD j 0, dictGetD c.points (xs.getD j 0) 0) := by
  rw [List.getD_eq_getElem _ _ (by simpa using hj), List.getElem_map,
    List.getD_eq_getElem _ _ hj]

theorem deltasOf_length : ∀ ps : List (ℤ × ℤ), (deltasOf ps).length = ps.length - 1
  | [] => rfl
  | [_] => rfl
  | _ :: p1 :: rest => by
    rw [deltasOf]
    simp only [List.length_cons]
    rw [deltasOf_length (p1 :: rest)]
    simp

theorem deltasOf_getD : ∀ (ps : List (ℤ × ℤ)) (i : ℕ), i + 1 < ps.length →
    (deltasOf ps).getD i 0 =
      (if (ps.getD (i + 1) (0, 0)).1 - (ps.getD i (0, 0)).1 ≠ 0 then
        (((ps.getD (i + 1) (0, 0)).2 - (ps.getD i (0, 0)).2 : ℤ) : ℚ) /
          (((ps.getD (i + 1) (0, 0)).1 - (ps.getD i (0, 0)).1 : ℤ) : ℚ)
      else 0)
  | [], i, hi => by simp at hi
  | [_], i, hi => by simp at hi
  | p0 :: p1 :: rest, 0, hi => by rw [deltasOf]; rfl
  | p0 :: p1 :: rest, i + 1, hi => by
    rw [deltasOf]
    have := deltasOf_getD (p1 :: rest) i (by simpa using hi)
    simpa using this

theorem innerTangents_length : ∀ d : List ℚ, (innerTangents d).length = d.length - 1
  | [] => rfl
  | [_] => rfl
  | _ :: d1 :: rest => by
    rw [innerTangents]
    simp only [List.length_cons]
    rw [innerTangents_length (d1 :: rest)]
    simp

theorem innerTangents_getD : ∀ (d : List ℚ) (i : ℕ), i + 1 < d.length →
    (innerTangents d).getD i 0 =
      (if d.getD i 0 * d.getD (i + 1) 0 ≤ 0 then 0
       else 2 / (1 / d.getD i 0 + 1 / d.getD (i + 1) 0))
  | [], i, hi => by simp at hi
  | [_], i, hi => by simp at hi
  | d0 :: d1 :: rest, 0, hi => by rw [innerTangents]; rfl
  | d0 :: d1 :: rest, i + 1, hi => by
    rw [innerTangents]
    have := innerTangents_getD (d1 :: rest) i (by simpa using hi)
    simpa using this

theorem initTangents_length {d : List ℚ} (hd : d ≠ []) :
    (initTangents d).length = d.length + 1 := by
  rcases d with _ | ⟨d0, drest⟩
  · exact absurd rfl hd
  · rw [initTangents]
    simp [innerTangents_length]

theorem initTangents_getD_zero {d : List ℚ} (hd : d ≠ []) :
    (initTangents d).getD 0 0 = d.getD 0 0 := by
  rcases d with _ | ⟨d0, drest⟩
  · exact absurd rfl hd
  · rfl

theorem initTangents_getD_last {d : List ℚ} (hd : d ≠ []) :
    (initTangents d).getD d.length 0 = d.getLastD 0 := by
  rcases d with _ | ⟨d0, drest⟩
  · exact absurd rfl hd
  · rw [initTangents]
    have hinner : (innerTangents (d0 :: drest)).length = drest.length := by
      simp [innerTangents_length]
    simp only [List.cons_append, List.length_cons]
    rw [List.getD_cons_succ]
    rw [List.getD_append_right _ _ _ _ (le_of_eq hinner)]
    rw [hinner]
    simp

theorem initTangents_getD_mid {d : List ℚ} {j : ℕ} (h1 : 1 ≤ j) (hj : j < d.length) :
    (initTangents d).getD j 0 = (innerTangents d).getD (j - 1) 0 := by
  rcases d with _ | ⟨d0, drest⟩
  · simp at hj
  · rw [initTangents]
    have hlen : (d0 :: innerTangents (d0 :: drest)).length = (d0 :: drest).length := by
      simp [innerTangents_length]
    rw [List.getD_append _ _ _ _ (by rw [hlen]; exact hj)]
    rcases j with _ | j2
    · omega
    · simp

theorem getD_set_self {l : List ℚ} {i : ℕ} (hi : i < l.length) (a : ℚ) :
    (l.set i a).getD i 0 = a := by
  rw [List.getD_eq_getElem?_getD, List.getElem?_set_self hi]
  rfl

theorem getD_set_ne {l : List ℚ} {i j : ℕ} (h : i ≠ j) (a : ℚ) :
    (l.set i a).getD j 0 = l.getD j 0 := by
  rw [List.getD_eq_getElem?_getD, List.getElem?_set_ne h, ← List.getD_eq_getElem?_getD]

theorem harmonic_bounds {a b : ℚ} (ha : 0 < a) (hb : 0 < b) :
    0 ≤ 2 / (1 / a + 1 / b) ∧ 2 / (1 / a + 1 / b) ≤ 2 * a ∧ 2 / (1 / a + 1 / b) ≤ 2 * b := by
  have hab : 0 < a + b := by linarith
  have hkey : 2 / (1 / a + 1 / b) = 2 * (a * b) / (a + b) := by
    field_simp
    ring
  rw [hkey]
  refine ⟨by positivity, ?_, ?_⟩
  · rw [div_le_iff₀ hab]
    nlinarith
  · rw [div_le_iff₀ hab]
    nlinarith

theorem getD_default_of_le {l : List ℚ} {i : ℕ} (h : l.length ≤ i) : l.getD i 0 = 0 := by
  rw [List.getD_eq_getElem?_getD, List.getElem?_eq_none h]
  rfl

theorem initTangents_inv {d : List ℚ} (hne : d ≠ []) (hd : ∀ i, 0 ≤ d.getD i 0) :
    TangentInv d (initTangents d) := by
  refine ⟨initTangents_length hne, fun i => ?_⟩
  have hlen : (initTangents d).length = d.length + 1 := initTangents_length hne
  rcases Nat.lt_or_ge i (d.length + 1) with hi | hi
  · rcases Nat.eq_zero_or_pos i with h0 | hpos
    · subst h0
      rw [initTangents_getD_zero hne]
      refine ⟨hd 0, fun _ => by have := hd 0; linarith, fun hc => by omega⟩
    · rcases Nat.lt_or_ge i d.length with hmid | hlast
      · rw [initTangents_getD_mid hpos hmid]
        have hgetd := innerTangents_getD d (i - 1) (by omega)
        have hi1 : i - 1 + 1 = i := by omega
        rw [hi1] at hgetd
        rw [hgetd]
        by_cases hsign : d.getD (i - 1) 0 * d.getD i 0 ≤ 0
        · rw [if_pos hsign]
          refine ⟨le_rfl, fun _ => by have := hd i; linarith,
            fun _ => by have := hd (i - 1); linarith⟩
        · rw [if_neg hsign]
          push_neg at hsign
          have hpa : 0 < d.getD (i - 1) 0 := by
            rcases lt_or_eq_of_le (hd (i - 1)) with h | h
            · exact h
            · rw [← h] at hsign; simp at hsign
          have hpb : 0 < d.getD i 0 := by
            rcases lt_or_eq_of_le (hd i) with h | h
            · exact h
            · rw [← h] at hsign; simp at hsign
          rcases harmonic_bounds hpa hpb with ⟨hh0, hha, hhb⟩
          exact ⟨hh0, fun _ => hhb, fun _ => hha⟩
      · have hieq : i = d.length := by omega
        subst hieq
        rw [initTangents_getD_last hne]
        have hlast2 : d.getLastD 0 = d.getD (d.length - 1) 0 := by
          rw [List.getLastD_eq_getLast?, List.getLast?_eq_getElem?, List.getD_eq_getElem?_getD]
        rw [hlast2]
        have hdl : 0 < d.length := List.length_pos.mpr hne
        refine ⟨hd _, fun hc => by omega, fun _ => ?_⟩
        have := hd (d.length - 1)
        linarith
  · have hout : (initTangents d).getD i 0 = 0 := getD_default_of_le (by omega)
    rw [hout]
    refine ⟨le_rfl, fun _ => by have := hd i; linarith, fun _ => by have := hd (i - 1); linarith⟩

theorem limitStep_inv (sq : ℚ → ℚ) {d t : List ℚ} (hd : ∀ i, 0 ≤ d.getD i 0)
    (hinv : TangentInv d t) {i : ℕ} (hi : i < d.length) :
    TangentInv d (limitStep sq d t i) := by
  rcases hinv with ⟨hlen, hcl⟩
  unfold limitStep
  by_cases hdz : d.getD i 0 = 0
  · rw [if_pos hdz]
    refine ⟨by simp [hlen], fun j => ?_⟩
    by_cases hji1 : j = i + 1
    · subst hji1
      rw [getD_set_self (by simp [hlen]; omega) 0]
      refine ⟨le_rfl, fun _ => by have := hd (i + 1); linarith, fun _ => ?_⟩
      simp only [Nat.add_sub_cancel]
      have := hd i
      linarith
    · rw [getD_set_ne (fun hc => hji1 hc.symm) 0]
      by_cases hji : j = i
      · subst hji
        rw [getD_set_self (by omega) 0]
        refine ⟨le_rfl, fun _ => by have := hd j; linarith,
          fun _ => by have := hd (j - 1); linarith⟩
      · rw [getD_set_ne (fun hc => hji hc.symm) 0]
        exact hcl j
  · rw [if_neg hdz]
    have hdpos : 0 < d.getD i 0 := lt_of_le_of_ne (hd i) (Ne.symm hdz)
    have hti := hcl i
    have hti1 := hcl (i + 1)
    have ha0 : 0 ≤ t.getD i 0 / d.getD i 0 := div_nonneg hti.1 hdpos.le
    have ha2 : t.getD i 0 / d.getD i 0 ≤ 2 := by
      rw [div_le_iff₀ hdpos]
      have := hti.2.1 hi
      linarith
    have hb0 : 0 ≤ t.getD (i + 1) 0 / d.getD i 0 := div_nonneg hti1.1 hdpos.le
    have hb2 : t.getD (i + 1) 0 / d.getD i 0 ≤ 2 := by
      rw [div_le_iff₀ hdpos]
      have := hti1.2.2 (by omega)
      simpa using this
    rw [if_neg (by push_neg; nlinarith)]
    exact ⟨hlen, hcl⟩

theorem foldl_limit_inv (sq : ℚ → ℚ) {d : List ℚ} (hd : ∀ i, 0 ≤ d.getD i 0) :
    ∀ (l : List ℕ), (∀ i ∈ l, i < d.length) → ∀ t, TangentInv d t →
      TangentInv d (l.foldl (limitStep sq d) t) := by
  intro l
  induction l with
  | nil => intro _ t ht; exact ht
  | cons a l ih =>
    intro hmem t ht
    rw [List.foldl_cons]
    exact ih (fun i hi => hmem i (List.mem_cons_of_mem a hi)) _
      (limitStep_inv sq hd ht (hmem a (by simp)))

theorem limitTangents_inv (sq : ℚ → ℚ) {d : List ℚ} (hne : d ≠ [])
    (hd : ∀ i, 0 ≤ d.getD i 0) {n : ℕ} (hn : n - 1 ≤ d.length) :
    TangentInv d (limitTangents sq n d (initTangents d)) := by
  unfold limitTangents
  exact foldl_limit_inv sq hd _ (fun i hi => by
      have := List.mem_range.mp hi
      omega)
    _ (initTangents_inv hne hd)

/-! ### Curve-level views of the smooth interpolator internals -/

theorem curveNodes_length (c : ChannelCalibration) :
    (curveNodes c).length = (get_sorted_percents c).length := by
  unfold curveNodes
  simp

theorem curveDeltas_length (c : ChannelCalibration) :
    (curveDeltas c).length = (get_sorted_percents c).length - 1 := by
  unfold curveDeltas
  rw [deltasOf_length, curveNodes_length]

/-- `smoothRat` on the sorted keys is exactly the clamped Hermite evaluation of
the located segment, expressed through the curve views. -/
theorem smoothRat_view (sq : ℚ → ℚ) (c : ChannelCalibration) (p : ℚ)
    (hj : segIdx c p + 1 < (get_sorted_percents c).length) :
    smoothRat sq c (get_sorted_percents c) p =
      clampGlobal (clampSeg (YQ c (segIdx c p)) (YQ c (segIdx c p + 1))
        (hermiteH (XQ c (segIdx c p)) (XQ c (segIdx c p + 1))
          (YQ c (segIdx c p)) (YQ c (segIdx c p + 1))
          (MQ sq c (segIdx c p)) (MQ sq c (segIdx c p + 1)) p)) := by
  unfold smoothRat
  simp only []
  rw [show (segLoop p (get_sorted_percents c) 0).getD 0 = segIdx c p from rfl]
  rw [getD_map_pair c _ (segIdx c p) (by omega), getD_map_pair c _ (segIdx c p + 1) hj]
  rfl

theorem interpolate_smooth_interior (sq : ℚ → ℚ) {c : ChannelCalibration} {x0 x1 : ℤ}
    {rest : List ℤ} (hxs : get_sorted_percents c = x0 :: x1 :: rest) {p : ℚ}
    (h1 : ¬(p ≤ (x0 : ℚ))) (h2 : ¬((((x0 :: x1 :: rest).getLastD 0 : ℤ) : ℚ) ≤ p)) :
    interpolate_smooth sq c p = pyTrunc (smoothRat sq c (get_sorted_percents c) p) := by
  unfold interpolate_smooth
  rw [hxs]
  simp only [if_neg h1, if_neg h2]

/-! ### The segment search -/

theorem segLoop_spec {p : ℚ} :
    ∀ (xs : List ℤ) (k : ℕ), 2 ≤ xs.length →
      ((xs.headD 0 : ℤ) : ℚ) < p → p ≤ ((xs.getLastD 0 : ℤ) : ℚ) →
      ∃ j, segLoop p xs k = some (k + j) ∧ j + 1 < xs.length ∧
        ((xs.getD j 0 : ℤ) : ℚ) < p ∧ p ≤ ((xs.getD (j + 1) 0 : ℤ) : ℚ)
  | [], k, hlen, _, _ => by simp at hlen
  | [_], k, hlen, _, _ => by simp at hlen
  | a :: b :: rest, k, hlen, hha, hhb => by
    rw [segLoop]
    by_cases hb : p ≤ ((b : ℤ) : ℚ)
    · rw [if_pos ⟨le_of_lt (by simpa using hha), hb⟩]
      exact ⟨0, rfl, by simp, by simpa using hha, by simpa using hb⟩
    · rw [if_neg (fun hc => hb hc.2)]
      push_neg at hb
      have hrest : rest ≠ [] := by
        intro hc
        subst hc
        simp only [getLastD_cons_cons] at hhb
        exact absurd hhb (not_le.mpr (by simpa using hb))
      rcases List.exists_cons_of_ne_nil hrest with ⟨r0, rtail, hr⟩
      subst hr
      rcases segLoop_spec (b :: r0 :: rtail) (k + 1) (by simp) (by simpa using hb)
          (by rw [getLastD_cons_cons] at hhb; exact hhb) with ⟨j, heq, hjlen, hjlo, hjhi⟩
      refine ⟨j + 1, ?_, by simpa using hjlen, by simpa using hjlo, by simpa using hjhi⟩
      rw [heq]
      congr 1
      omega

theorem segLoop_congr {p q : ℚ} (hpq : p ≤ q) :
    ∀ (xs : List ℤ) (k : ℕ),
      (∀ m ∈ xs, ¬(p ≤ ((m : ℤ) : ℚ) ∧ ((m : ℤ) : ℚ) ≤ q)) →
      segLoop p xs k = segLoop q xs k
  | [], _, _ => rfl
  | [_], _, _ => rfl
  | a :: b :: rest, k, hgap => by
    rw [segLoop, segLoop]
    have hcond : ((a : ℤ) : ℚ) ≤ p ∧ p ≤ ((b : ℤ) : ℚ) ↔
        ((a : ℤ) : ℚ) ≤ q ∧ q ≤ ((b : ℤ) : ℚ) := by
      constructor
      · rintro ⟨h1, h2⟩
        refine ⟨h1.trans hpq, ?_⟩
        by_contra hc
        push_neg at hc
        exact hgap b (by simp) ⟨h2, hc.le⟩
      · rintro ⟨h1, h2⟩
        refine ⟨?_, hpq.trans h2⟩
        by_contra hc
        push_neg at hc
        exact hgap a (by simp) ⟨hc.le, h1⟩
    by_cases hc : ((a : ℤ) : ℚ) ≤ p ∧ p ≤ ((b : ℤ) : ℚ)
    · rw [if_pos hc, if_pos (hcond.mp hc)]
    · rw [if_neg hc, if_neg (fun hq => hc (hcond.mpr hq))]
      exact segLoop_congr hpq (b :: rest) (k + 1)
        (fun m hm => hgap m (List.mem_cons_of_mem a hm))

theorem XQ_lt {c : ChannelCalibration} (hnd : (c.points.map Prod.fst).Nodup) {i j : ℕ}
    (hij : i < j) (hj : j < (get_sorted_percents c).length) : XQ c i < XQ c j := by
  unfold XQ
  exact_mod_cast pairwise_getD_lt (sorted_percents_strict hnd) hij hj

theorem YQ_mono {c : ChannelCalibration} (hnd : (c.points.map Prod.fst).Nodup)
    (hmono : ValsMono c) {i j : ℕ} (hij : i ≤ j) (hj : j < (get_sorted_percents c).length) :
    YQ c i ≤ YQ c j := by
  unfold YQ
  have h1 : (get_sorted_percents c).getD i 0 ∈ get_sorted_percents c :=
    mem_iff_getD.mpr ⟨i, by omega, rfl⟩
  have h2 : (get_sorted_percents c).getD j 0 ∈ get_sorted_percents c :=
    mem_iff_getD.mpr ⟨j, hj, rfl⟩
  exact_mod_cast valAt_mono hmono h1 h2
    (pairwise_getD_le (sorted_percents_strict hnd) hij hj)

theorem YQ_range {c : ChannelCalibration} (hrange : ValsRange c) {j : ℕ}
    (hj : j < (get_sorted_percents c).length) : 0 ≤ YQ c j ∧ YQ c j ≤ (PWM_MAX : ℚ) := by
  unfold YQ
  have h1 : (get_sorted_percents c).getD j 0 ∈ get_sorted_percents c :=
    mem_iff_getD.mpr ⟨j, hj, rfl⟩
  rcases valAt_range hrange h1 with ⟨ha, hb⟩
  exact ⟨by exact_mod_cast ha, by exact_mod_cast hb⟩

theorem DQ_eq {c : ChannelCalibration} (hnd : (c.points.map Prod.fst).Nodup) {j : ℕ}
    (hj : j + 1 < (get_sorted_percents c).length) :
    DQ c j = (YQ c (j + 1) - YQ c j) / (XQ c (j + 1) - XQ c j) := by
  unfold DQ curveDeltas
  have hlen : j + 1 < (curveNodes c).length := by rw [curveNodes_length]; exact hj
  rw [deltasOf_getD _ j hlen]
  unfold curveNodes
  rw [getD_map_pair c _ j (by omega), getD_map_pair c _ (j + 1) hj]
  have hxlt : (get_sorted_percents c).getD j 0 < (get_sorted_percents c).getD (j + 1) 0 :=
    pairwise_getD_lt (sorted_percents_strict hnd) (by omega) hj
  rw [if_pos (by simp only []; omega)]
  unfold XQ YQ
  push_cast
  ring

theorem DQ_nonneg {c : ChannelCalibration} (hnd : (c.points.map Prod.fst).Nodup)
    (hmono : ValsMono c) (j : ℕ) : 0 ≤ DQ c j := by
  by_cases hj : j + 1 < (get_sorted_percents c).length
  · rw [DQ_eq hnd hj]
    have hxlt : XQ c j < XQ c (j + 1) := XQ_lt hnd (by omega) hj
    have hyle : YQ c j ≤ YQ c (j + 1) := YQ_mono hnd hmono (by omega) hj
    exact div_nonneg (by linarith) (by linarith)
  · unfold DQ
    rw [getD_default_of_le]
    rw [curveDeltas_length]
    omega

theorem DQ_mul {c : ChannelCalibration} (hnd : (c.points.map Prod.fst).Nodup) {j : ℕ}
    (hj : j + 1 < (get_sorted_percents c).length) :
    DQ c j * (XQ c (j + 1) - XQ c j) = YQ c (j + 1) - YQ c j := by
  rw [DQ_eq hnd hj]
  have hxlt : XQ c j < XQ c (j + 1) := XQ_lt hnd (by omega) hj
  exact div_mul_cancel₀ _ (by linarith)

theorem MQ_bounds (sq : ℚ → ℚ) {c : ChannelCalibration}
    (hnd : (c.points.map Prod.fst).Nodup) (hmono : ValsMono c) {j : ℕ}
    (hj : j + 1 < (get_sorted_percents c).length) :
    0 ≤ MQ sq c j ∧ MQ sq c j ≤ 2 * DQ c j ∧
      0 ≤ MQ sq c (j + 1) ∧ MQ sq c (j + 1) ≤ 2 * DQ c j := by
  have hdlen : (curveDeltas c).length = (get_sorted_percents c).length - 1 :=
    curveDeltas_length c
  have hne : curveDeltas c ≠ [] := by
    apply List.ne_nil_of_length_pos
    omega
  have hd : ∀ i, 0 ≤ (curveDeltas c).getD i 0 := fun i => DQ_nonneg hnd hmono i
  have hinv : TangentInv (curveDeltas c)
      (limitTangents sq (curveNodes c).length (curveDeltas c)
        (initTangents (curveDeltas c))) := by
    apply limitTangents_inv sq hne hd
    rw [curveNodes_length]
    omega
  rcases hinv with ⟨_, hcl⟩
  have hjd : j < (curveDeltas c).length := by omega
  rcases hcl j with ⟨h1, h2, _⟩
  rcases hcl (j + 1) with ⟨h3, _, h4⟩
  refine ⟨h1, h2 hjd, h3, ?_⟩
  have := h4 (by omega)
  rw [Nat.add_sub_cancel] at this
  exact this

theorem hermiteH_psi (X0 X1 Y0 d al be r : ℚ) (hh : X1 - X0 ≠ 0) :
    hermiteH X0 X1 Y0 (Y0 + d * (X1 - X0)) (al * d) (be * d) r =
      Y0 + d * (X1 - X0) *
        (-2 * ((r - X0) / (X1 - X0)) ^ 3 + 3 * ((r - X0) / (X1 - X0)) ^ 2 +
          al * (((r - X0) / (X1 - X0)) ^ 3 - 2 * ((r - X0) / (X1 - X0)) ^ 2 +
            (r - X0) / (X1 - X0)) +
          be * (((r - X0) / (X1 - X0)) ^ 3 - ((r - X0) / (X1 - X0)) ^ 2)) := by
  unfold hermiteH
  simp only []
  rw [if_pos hh]
  ring

theorem hermiteH_right (X0 X1 Y0 Y1 m0 m1 : ℚ) (hh : X1 - X0 ≠ 0) :
    hermiteH X0 X1 Y0 Y1 m0 m1 X1 = Y1 := by
  unfold hermiteH
  simp only []
  rw [if_pos hh, div_self hh]
  ring

theorem psi_mono {al be t1 t2 : ℚ} (ha0 : 0 ≤ al) (ha2 : al ≤ 2) (hb0 : 0 ≤ be)
    (hb2 : be ≤ 2) (h1 : 0 ≤ t1) (h12 : t1 ≤ t2) (h2 : t2 ≤ 1) :
    -2 * t1 ^ 3 + 3 * t1 ^ 2 + al * (t1 ^ 3 - 2 * t1 ^ 2 + t1) + be * (t1 ^ 3 - t1 ^ 2) ≤
      -2 * t2 ^ 3 + 3 * t2 ^ 2 + al * (t2 ^ 3 - 2 * t2 ^ 2 + t2) + be * (t2 ^ 3 - t2 ^ 2) := by
  have g00 : 0 ≤ 3 * (t1 + t2) - 2 * (t1 ^ 2 + t1 * t2 + t2 ^ 2) := by nlinarith
  have g20 : 0 ≤ 2 - (t1 + t2) := by nlinarith
  have g02 : 0 ≤ t1 + t2 := by nlinarith
  have g22 : 0 ≤ 2 * (t1 ^ 2 + t1 * t2 + t2 ^ 2) - 3 * (t1 + t2) + 2 := by
    nlinarith [sq_nonneg (t1 - t2), sq_nonneg (t1 + t2 - 1)]
  have ht : 0 ≤ t2 - t1 := by linarith
  nlinarith [mul_nonneg ht (mul_nonneg (mul_nonneg (by linarith : (0:ℚ) ≤ 2 - al)
        (by linarith : (0:ℚ) ≤ 2 - be)) g00),
    mul_nonneg ht (mul_nonneg (mul_nonneg ha0 (by linarith : (0:ℚ) ≤ 2 - be)) g20),
    mul_nonneg ht (mul_nonneg (mul_nonneg (by linarith : (0:ℚ) ≤ 2 - al) hb0) g02),
    mul_nonneg ht (mul_nonneg (mul_nonneg ha0 hb0) g22)]

theorem clampSeg_self (y r : ℚ) : clampSeg y y r = y := by
  unfold clampSeg
  rw [min_self, max_self, max_eq_left (min_le_left _ _)]

/-- Within one located segment, the clamped Hermite value is monotone in the
query point. -/
theorem smooth_seg_mono (sq : ℚ → ℚ) {c : ChannelCalibration}
    (hnd : (c.points.map Prod.fst).Nodup) (hmono : ValsMono c) {j : ℕ}
    (hj : j + 1 < (get_sorted_percents c).length) {p q : ℚ}
    (hp0 : XQ c j < p) (hpq : p ≤ q) (hq1 : q ≤ XQ c (j + 1)) :
    clampSeg (YQ c j) (YQ c (j + 1))
      (hermiteH (XQ c j) (XQ c (j + 1)) (YQ c j) (YQ c (j + 1))
        (MQ sq c j) (MQ sq c (j + 1)) p) ≤
    clampSeg (YQ c j) (YQ c (j + 1))
      (hermiteH (XQ c j) (XQ c (j + 1)) (YQ c j) (YQ c (j + 1))
        (MQ sq c j) (MQ sq c (j + 1)) q) := by
  have hxx : XQ c j < XQ c (j + 1) := XQ_lt hnd (by omega) hj
  have hh : XQ c (j + 1) - XQ c j ≠ 0 := by linarith
  by_cases hdz : DQ c j = 0
  · have hyy : YQ c (j + 1) = YQ c j := by
      have := DQ_mul hnd hj
      rw [hdz] at this
      linarith [this.symm]
    rw [hyy, clampSeg_self, clampSeg_self]
  · have hd0 : 0 < DQ c j := lt_of_le_of_ne (DQ_nonneg hnd hmono j) (Ne.symm hdz)
    rcases MQ_bounds sq hnd hmono hj with ⟨hm00, hm02, hm10, hm12⟩
    have hM0 : MQ sq c j = MQ sq c j / DQ c j * DQ c j := (div_mul_cancel₀ _ hdz).symm
    have hM1 : MQ sq c (j + 1) = MQ sq c (j + 1) / DQ c j * DQ c j :=
      (div_mul_cancel₀ _ hdz).symm
    have hY1 : YQ c (j + 1) = YQ c j + DQ c j * (XQ c (j + 1) - XQ c j) := by
      have := DQ_mul hnd hj
      linarith
    have ha0 : 0 ≤ MQ sq c j / DQ c j := div_nonneg hm00 hd0.le
    have ha2 : MQ sq c j / DQ c j ≤ 2 := by
      rw [div_le_iff₀ hd0]
      linarith
    have hb0 : 0 ≤ MQ sq c (j + 1) / DQ c j := div_nonneg hm10 hd0.le
    have hb2 : MQ sq c (j + 1) / DQ c j ≤ 2 := by
      rw [div_le_iff₀ hd0]
      linarith
    have ht0 : 0 ≤ (p - XQ c j) / (XQ c (j + 1) - XQ c j) :=
      div_nonneg (by linarith) (by linarith)
    have htpq : (p - XQ c j) / (XQ c (j + 1) - XQ c j) ≤
        (q - XQ c j) / (XQ c (j + 1) - XQ c j) := by
      rw [div_eq_mul_inv, div_eq_mul_inv]
      exact mul_le_mul_of_nonneg_right (by linarith) (inv_nonneg.mpr (by linarith))
    have ht1 : (q - XQ c j) / (XQ c (j + 1) - XQ c j) ≤ 1 := by
      rw [div_le_one (by linarith)]
      linarith
    apply clampSeg_mono
    rw [hY1, hM0, hM1, hermiteH_psi _ _ _ _ _ _ _ hh, hermiteH_psi _ _ _ _ _ _ _ hh]
    have hpsi := psi_mono ha0 ha2 hb0 hb2 ht0 htpq ht1
    have hfac : 0 ≤ DQ c j * (XQ c (j + 1) - XQ c j) := by
      apply mul_nonneg hd0.le
      linarith
    nlinarith [mul_le_mul_of_nonneg_left hpsi hfac]

theorem interpolate_smooth_nil (sq : ℚ → ℚ) {c : ChannelCalibration}
    (hxs : get_sorted_percents c = []) (p : ℚ) : interpolate_smooth sq c p = 0 := by
  unfold interpolate_smooth
  rw [hxs]

theorem interpolate_smooth_single (sq : ℚ → ℚ) {c : ChannelCalibration} {x0 : ℤ}
    (hxs : get_sorted_percents c = [x0]) (p : ℚ) :
    interpolate_smooth sq c p = dictGetD c.points x0 0 := by
  unfold interpolate_smooth
  rw [hxs]

theorem interpolate_smooth_low (sq : ℚ → ℚ) {c : ChannelCalibration} {x0 x1 : ℤ}
    {rest : List ℤ} (hxs : get_sorted_percents c = x0 :: x1 :: rest) {p : ℚ}
    (h1 : p ≤ (x0 : ℚ)) : interpolate_smooth sq c p = dictGetD c.points x0 0 := by
  unfold interpolate_smooth
  rw [hxs]
  simp only [if_pos h1]

theorem interpolate_smooth_high (sq : ℚ → ℚ) {c : ChannelCalibration} {x0 x1 : ℤ}
    {rest : List ℤ} (hxs : get_sorted_percents c = x0 :: x1 :: rest) {p : ℚ}
    (h1 : ¬(p ≤ (x0 : ℚ))) (h2 : (((x0 :: x1 :: rest).getLastD 0 : ℤ) : ℚ) ≤ p) :
    interpolate_smooth sq c p = dictGetD c.points ((x0 :: x1 :: rest).getLastD 0) 0 := by
  unfold interpolate_smooth
  rw [hxs]
  simp only [if_neg h1, if_pos h2]

theorem clampSeg_at_right (y0v y1v : ℚ) : clampSeg y0v y1v y1v = y1v := by
  unfold clampSeg
  rw [min_eq_right (le_max_right y0v y1v), max_eq_right (min_le_right y0v y1v)]

/-- Bundle for the interior branch: the located segment index together with the
evaluation of `interpolate_smooth` through the curve views. -/
theorem smooth_interior_bundle (sq : ℚ → ℚ) {c : ChannelCalibration} {x0 x1 : ℤ}
    {rest : List ℤ} (hxs : get_sorted_percents c = x0 :: x1 :: rest) {p : ℚ}
    (h1 : ¬(p ≤ (x0 : ℚ))) (h2 : ¬((((x0 :: x1 :: rest).getLastD 0 : ℤ) : ℚ) ≤ p)) :
    segIdx c p + 1 < (get_sorted_percents c).length ∧
      XQ c (segIdx c p) < p ∧ p ≤ XQ c (segIdx c p + 1) ∧
      interpolate_smooth sq c p =
        pyTrunc (clampGlobal (clampSeg (YQ c (segIdx c p)) (YQ c (segIdx c p + 1))
          (hermiteH (XQ c (segIdx c p)) (XQ c (segIdx c p + 1))
            (YQ c (segIdx c p)) (YQ c (segIdx c p + 1))
            (MQ sq c (segIdx c p)) (MQ sq c (segIdx c p + 1)) p))) := by
  push_neg at h1 h2
  rcases segLoop_spec (x0 :: x1 :: rest) 0 (by simp) (by simpa using h1) h2.le
    with ⟨j, heq, hjlen, hjlo, hjhi⟩
  have hseg : segIdx c p = j := by
    unfold segIdx
    rw [hxs, heq]
    simp
  have hlen2 : (get_sorted_percents c).length = (x0 :: x1 :: rest).length := by rw [hxs]
  have hj : segIdx c p + 1 < (get_sorted_percents c).length := by
    rw [hseg, hlen2]
    exact hjlen
  refine ⟨hj, ?_, ?_, ?_⟩
  · rw [hseg]
    unfold XQ
    rw [hxs]
    exact hjlo
  · rw [hseg]
    unfold XQ
    rw [hxs]
    exact hjhi
  · rw [interpolate_smooth_interior sq hxs (by push_neg; exact h1) (by push_neg; exact h2)]
    rw [smoothRat_view sq c p hj]

/-- Stored values at keys at or below the query bound `interpolate_smooth` from
below. -/
theorem smooth_lower_bound (sq : ℚ → ℚ) {c : ChannelCalibration}
    (hnd : (c.points.map Prod.fst).Nodup) (hmono : ValsMono c) (hrange : ValsRange c)
    {p : ℚ} {k : ℤ} (hk : k ∈ get_sorted_percents c) (hkp : (k : ℚ) ≤ p) :
    dictGetD c.points k 0 ≤ interpolate_smooth sq c p := by
  rcases hxs : get_sorted_percents c with _ | ⟨x0, rest0⟩
  · rw [hxs] at hk
    simp at hk
  rcases rest0 with _ | ⟨x1, rest⟩
  · have hkx0 : k = x0 := by
      rw [hxs] at hk
      simpa using hk
    rw [interpolate_smooth_single sq hxs p, hkx0]
  have hsor : List.Sorted (· ≤ ·) (x0 :: x1 :: rest) := hxs ▸ sorted_percents_sorted c
  have hstrict : List.Pairwise (· < ·) (x0 :: x1 :: rest) := hxs ▸ sorted_percents_strict hnd
  have hkmem : k ∈ x0 :: x1 :: rest := hxs ▸ hk
  by_cases h1 : p ≤ (x0 : ℚ)
  · rw [interpolate_smooth_low sq hxs h1]
    have hkx0 : k = x0 := le_antisymm (by exact_mod_cast hkp.trans h1)
      (head_le_of_sorted hsor hkmem)
    rw [hkx0]
  · by_cases h2 : (((x0 :: x1 :: rest).getLastD 0 : ℤ) : ℚ) ≤ p
    · rw [interpolate_smooth_high sq hxs h1 h2]
      refine valAt_mono hmono hk ?_ (le_getLastD_of_sorted hsor hkmem)
      rw [hxs]
      exact getLastD_mem_of_ne_nil (by simp)
    · rcases smooth_interior_bundle sq hxs h1 h2 with ⟨hj, hlo, hhi, heval⟩
      rw [heval]
      have hYmono : YQ c (segIdx c p) ≤ YQ c (segIdx c p + 1) :=
        YQ_mono hnd hmono (by omega) hj
      rcases YQ_range hrange (show segIdx c p < (get_sorted_percents c).length by omega)
        with ⟨hY00, hY0M⟩
      rcases YQ_range hrange hj with ⟨hY10, hY1M⟩
      rcases clampSeg_bounds (YQ c (segIdx c p)) (YQ c (segIdx c p + 1))
        (hermiteH (XQ c (segIdx c p)) (XQ c (segIdx c p + 1)) (YQ c (segIdx c p))
          (YQ c (segIdx c p + 1)) (MQ sq c (segIdx c p)) (MQ sq c (segIdx c p + 1)) p)
        with ⟨hcl, hcu⟩
      rw [min_eq_left hYmono] at hcl
      rw [max_eq_right hYmono] at hcu
      have hgid : clampGlobal (clampSeg (YQ c (segIdx c p)) (YQ c (segIdx c p + 1))
          (hermiteH (XQ c (segIdx c p)) (XQ c (segIdx c p + 1)) (YQ c (segIdx c p))
            (YQ c (segIdx c p + 1)) (MQ sq c (segIdx c p)) (MQ sq c (segIdx c p + 1)) p)) =
          clampSeg (YQ c (segIdx c p)) (YQ c (segIdx c p + 1))
            (hermiteH (XQ c (segIdx c p)) (XQ c (segIdx c p + 1)) (YQ c (segIdx c p))
              (YQ c (segIdx c p + 1)) (MQ sq c (segIdx c p)) (MQ sq c (segIdx c p + 1)) p) :=
        clampGlobal_id (le_trans hY00 hcl) (le_trans hcu hY1M)
      rw [hgid]
      rcases mem_iff_getD.mp hk with ⟨m, hm, hgm⟩
      have hstrict2 : List.Pairwise (· < ·) (get_sorted_percents c) :=
        sorted_percents_strict hnd
      rcases Nat.lt_or_ge m (segIdx c p + 1) with hmj | hmj
      · have hkle : k ≤ (get_sorted_percents c).getD (segIdx c p) 0 := by
          rw [← hgm]
          exact pairwise_getD_le hstrict2 (by omega) (by omega)
        have hvk : dictGetD c.points k 0 ≤
            dictGetD c.points ((get_sorted_percents c).getD (segIdx c p) 0) 0 :=
          valAt_mono hmono hk (mem_iff_getD.mpr ⟨segIdx c p, by omega, rfl⟩) hkle
        refine le_trans hvk (le_pyTrunc hcl ?_)
        have := YQ_range hrange (show segIdx c p < (get_sorted_percents c).length by omega)
        unfold YQ at this
        exact_mod_cast this.1
      · rcases Nat.eq_or_lt_of_le hmj with hmj2 | hmj2
        · have hkx : (k : ℚ) = XQ c (segIdx c p + 1) := by
            unfold XQ
            rw [← hgm, ← hmj2]
          have hpk : p = XQ c (segIdx c p + 1) := le_antisymm hhi (hkx ▸ hkp)
          have hhne : XQ c (segIdx c p + 1) - XQ c (segIdx c p) ≠ 0 := by
            have := XQ_lt hnd (show segIdx c p < segIdx c p + 1 by omega) hj
            linarith
          have hHeq : ∀ r : ℚ, r = XQ c (segIdx c p + 1) →
              hermiteH (XQ c (segIdx c p)) (XQ c (segIdx c p + 1)) (YQ c (segIdx c p))
                (YQ c (segIdx c p + 1)) (MQ sq c (segIdx c p)) (MQ sq c (segIdx c p + 1)) r =
              YQ c (segIdx c p + 1) := by
            intro r hr
            rw [hr]
            exact hermiteH_right _ _ _ _ _ _ hhne
          rw [hHeq p hpk, clampSeg_at_right]
          have hY1int : YQ c (segIdx c p + 1) =
              ((dictGetD c.points ((get_sorted_percents c).getD (segIdx c p + 1) 0) 0 : ℤ) : ℚ) :=
            rfl
          rw [hY1int, pyTrunc_intCast]
          apply valAt_mono hmono hk (mem_iff_getD.mpr ⟨segIdx c p + 1, hj, rfl⟩)
          rw [← hgm, hmj2]
        · exfalso
          have : (get_sorted_percents c).getD (segIdx c p + 1) 0 <
              (get_sorted_percents c).getD m 0 := pairwise_getD_lt hstrict2 hmj2 hm
          rw [hgm] at this
          have hq : XQ c (segIdx c p + 1) < (k : ℚ) := by
            unfold XQ
            exact_mod_cast this
          linarith [hkp.trans hhi]

/-- Stored values at keys at or above the query bound `interpolate_smooth` from
above. -/
theorem smooth_upper_bound (sq : ℚ → ℚ) {c : ChannelCalibration}
    (hnd : (c.points.map Prod.fst).Nodup) (hmono : ValsMono c) (hrange : ValsRange c)
    {p : ℚ} {k : ℤ} (hk : k ∈ get_sorted_percents c) (hkp : p ≤ (k : ℚ)) :
    interpolate_smooth sq c p ≤ dictGetD c.points k 0 := by
  rcases hxs : get_sorted_percents c with _ | ⟨x0, rest0⟩
  · rw [hxs] at hk
    simp at hk
  rcases rest0 with _ | ⟨x1, rest⟩
  · have hkx0 : k = x0 := by
      rw [hxs] at hk
      simpa using hk
    rw [interpolate_smooth_single sq hxs p, hkx0]
  have hsor : List.Sorted (· ≤ ·) (x0 :: x1 :: rest) := hxs ▸ sorted_percents_sorted c
  have hkmem : k ∈ x0 :: x1 :: rest := hxs ▸ hk
  by_cases h1 : p ≤ (x0 : ℚ)
  · rw [interpolate_smooth_low sq hxs h1]
    refine valAt_mono hmono ?_ hk (head_le_of_sorted hsor hkmem)
    rw [hxs]
    simp
  · by_cases h2 : (((x0 :: x1 :: rest).getLastD 0 : ℤ) : ℚ) ≤ p
    · rw [interpolate_smooth_high sq hxs h1 h2]
      have hkxl : k = (x0 :: x1 :: rest).getLastD 0 := le_antisymm
        (le_getLastD_of_sorted hsor hkmem) (by exact_mod_cast h2.trans hkp)
      rw [hkxl]
    · rcases smooth_interior_bundle sq hxs h1 h2 with ⟨hj, hlo, hhi, heval⟩
      rw [heval]
      have hYmono : YQ c (segIdx c p) ≤ YQ c (segIdx c p + 1) :=
        YQ_mono hnd hmono (by omega) hj
      rcases YQ_range hrange (show segIdx c p < (get_sorted_percents c).length by omega)
        with ⟨hY00, hY0M⟩
      rcases YQ_range hrange hj with ⟨hY10, hY1M⟩
      rcases clampSeg_bounds (YQ c (segIdx c p)) (YQ c (segIdx c p + 1))
        (hermiteH (XQ c (segIdx c p)) (XQ c (segIdx c p + 1)) (YQ c (segIdx c p))
          (YQ c (segIdx c p + 1)) (MQ sq c (segIdx c p)) (MQ sq c (segIdx c p + 1)) p)
        with ⟨hcl, hcu⟩
      rw [min_eq_left hYmono] at hcl
      rw [max_eq_right hYmono] at hcu
      have hgid : clampGlobal (clampSeg (YQ c (segIdx c p)) (YQ c (segIdx c p + 1))
          (hermiteH (XQ c (segIdx c p)) (XQ c (segIdx c p + 1)) (YQ c (segIdx c p))
            (YQ c (segIdx c p + 1)) (MQ sq c (segIdx c p)) (MQ sq c (segIdx c p + 1)) p)) =
          clampSeg (YQ c (segIdx c p)) (YQ c (segIdx c p + 1))
            (hermiteH (XQ c (segIdx c p)) (XQ c (segIdx c p + 1)) (YQ c (segIdx c p))
              (YQ c (segIdx c p + 1)) (MQ sq c (segIdx c p)) (MQ sq c (segIdx c p + 1)) p) :=
        clampGlobal_id (le_trans hY00 hcl) (le_trans hcu hY1M)
      rw [hgid]
      rcases mem_iff_getD.mp hk with ⟨m, hm, hgm⟩
      have hstrict2 : List.Pairwise (· < ·) (get_sorted_percents c) :=
        sorted_percents_strict hnd
      have hmge : segIdx c p + 1 ≤ m := by
        by_contra hc
        push_neg at hc
        have hle : (get_sorted_percents c).getD m 0 ≤
            (get_sorted_percents c).getD (segIdx c p) 0 :=
          pairwise_getD_le hstrict2 (by omega) (by omega)
        rw [hgm] at hle
        have : (k : ℚ) ≤ XQ c (segIdx c p) := by
          unfold XQ
          exact_mod_cast hle
        linarith [hkp.trans this]
      have hvk : dictGetD c.points ((get_sorted_percents c).getD (segIdx c p + 1) 0) 0 ≤
          dictGetD c.points k 0 := by
        refine valAt_mono hmono (mem_iff_getD.mpr ⟨segIdx c p + 1, hj, rfl⟩) hk ?_
        rw [← hgm]
        exact pairwise_getD_le hstrict2 hmge hm
      refine le_trans (pyTrunc_le ?_) hvk
      exact hcu

/-- The output of `interpolate_smooth` stays inside the drive-value domain. -/
theorem smooth_range (sq : ℚ → ℚ) {c : ChannelCalibration} (hrange : ValsRange c)
    (p : ℚ) : 0 ≤ interpolate_smooth sq c p ∧ interpolate_smooth sq c p ≤ PWM_MAX := by
  rcases hxs : get_sorted_percents c with _ | ⟨x0, rest0⟩
  · rw [interpolate_smooth_nil sq hxs p]
    exact ⟨le_rfl, by decide⟩
  rcases rest0 with _ | ⟨x1, rest⟩
  · rw [interpolate_smooth_single sq hxs p]
    exact valAt_range hrange (by rw [hxs]; simp)
  by_cases h1 : p ≤ (x0 : ℚ)
  · rw [interpolate_smooth_low sq hxs h1]
    exact valAt_range hrange (by rw [hxs]; simp)
  · by_cases h2 : (((x0 :: x1 :: rest).getLastD 0 : ℤ) : ℚ) ≤ p
    · rw [interpolate_smooth_high sq hxs h1 h2]
      refine valAt_range hrange ?_
      rw [hxs]
      exact getLastD_mem_of_ne_nil (by simp)
    · rcases smooth_interior_bundle sq hxs h1 h2 with ⟨hj, hlo, hhi, heval⟩
      rw [heval]
      rcases clampGlobal_bounds (clampSeg (YQ c (segIdx c p)) (YQ c (segIdx c p + 1))
        (hermiteH (XQ c (segIdx c p)) (XQ c (segIdx c p + 1)) (YQ c (segIdx c p))
          (YQ c (segIdx c p + 1)) (MQ sq c (segIdx c p)) (MQ sq c (segIdx c p + 1)) p))
        with ⟨hg0, hgM⟩
      exact ⟨pyTrunc_nonneg hg0, pyTrunc_le hgM⟩

/-- Monotonicity of `interpolate_smooth` in the queried percent, for curves with
unique keys, monotone stored values and in-range stored values. -/
theorem smooth_mono (sq : ℚ → ℚ) {c : ChannelCalibration}
    (hnd : (c.points.map Prod.fst).Nodup) (hmono : ValsMono c) (hrange : ValsRange c)
    {p q : ℚ} (hpq : p ≤ q) :
    interpolate_smooth sq c p ≤ interpolate_smooth sq c q := by
  by_cases hbridge : ∃ k ∈ get_sorted_percents c, p ≤ (k : ℚ) ∧ (k : ℚ) ≤ q
  · rcases hbridge with ⟨k, hk, hb1, hb2⟩
    exact le_trans (smooth_upper_bound sq hnd hmono hrange hk hb1)
      (smooth_lower_bound sq hnd hmono hrange hk hb2)
  · push_neg at hbridge
    rcases hxs : get_sorted_percents c with _ | ⟨x0, rest0⟩
    · rw [interpolate_smooth_nil sq hxs p, interpolate_smooth_nil sq hxs q]
    rcases rest0 with _ | ⟨x1, rest⟩
    · rw [interpolate_smooth_single sq hxs p, interpolate_smooth_single sq hxs q]
    have hgap : ∀ k ∈ x0 :: x1 :: rest, p ≤ (k : ℚ) → q < (k : ℚ) := fun k hk hpk =>
      hbridge k (hxs ▸ hk) hpk
    by_cases h1 : p ≤ (x0 : ℚ)
    · have h1q : q < (x0 : ℚ) := hgap x0 (by simp) h1
      rw [interpolate_smooth_low sq hxs h1, interpolate_smooth_low sq hxs h1q.le]
    · have h1q : ¬(q ≤ (x0 : ℚ)) := by
        push_neg at h1 ⊢
        exact h1.trans_le hpq
      by_cases h2 : (((x0 :: x1 :: rest).getLastD 0 : ℤ) : ℚ) ≤ p
      · have h2q : (((x0 :: x1 :: rest).getLastD 0 : ℤ) : ℚ) ≤ q := h2.trans hpq
        rw [interpolate_smooth_high sq hxs h1 h2, interpolate_smooth_high sq hxs h1q h2q]
      · have h2q : ¬((((x0 :: x1 :: rest).getLastD 0 : ℤ) : ℚ) ≤ q) := by
          push_neg at h2 ⊢
          exact hgap _ (getLastD_mem_of_ne_nil (by simp)) (le_of_lt h2)
        have hsame : segLoop q (get_sorted_percents c) 0 = segLoop p (get_sorted_percents c) 0 := by
          rw [hxs]
          refine (segLoop_congr hpq (x0 :: x1 :: rest) 0 ?_).symm
          intro m hm ⟨hm1, hm2⟩
          exact absurd hm2 (not_le.mpr (hgap m hm hm1))
        have hsidx : segIdx c q = segIdx c p := by
          unfold segIdx
          rw [hsame]
        rcases smooth_interior_bundle sq hxs h1 h2 with ⟨hj, hlo, hhi, heval⟩
        rcases smooth_interior_bundle sq hxs h1q h2q with ⟨hjq, hloq, hhiq, hevalq⟩
        rw [hsidx] at hevalq hhiq
        rw [heval, hevalq]
        apply pyTrunc_mono
        apply clampGlobal_mono
        exact smooth_seg_mono sq hnd hmono hj hlo hpq hhiq

/-! ### Dispatch, threshold remap, and LUT -/

theorem raw_mono (sq : ℚ → ℚ) {c : ChannelCalibration}
    (hnd : (c.points.map Prod.fst).Nodup) (hmono : ValsMono c) (hrange : ValsRange c)
    {p q : ℚ} (hpq : p ≤ q) : rawInterpolate sq c p ≤ rawInterpolate sq c q := by
  unfold rawInterpolate
  by_cases hs : c.use_smooth = true ∧ 3 ≤ c.points.length
  · rw [if_pos hs, if_pos hs]
    exact smooth_mono sq hnd hmono hrange hpq
  · rw [if_neg hs, if_neg hs]
    exact lin_mono hnd hmono hrange hpq

theorem raw_range (sq : ℚ → ℚ) {c : ChannelCalibration}
    (hnd : (c.points.map Prod.fst).Nodup) (hrange : ValsRange c) (p : ℚ) :
    0 ≤ rawInterpolate sq c p ∧ rawInterpolate sq c p ≤ PWM_MAX := by
  unfold rawInterpolate
  by_cases hs : c.use_smooth = true ∧ 3 ≤ c.points.length
  · rw [if_pos hs]
    exact smooth_range sq hrange p
  · rw [if_neg hs]
    exact lin_range hnd hrange p

theorem interpolate_mono (sq : ℚ → ℚ) {c : ChannelCalibration}
    (hnd : (c.points.map Prod.fst).Nodup) (hmono : ValsMono c) (hrange : ValsRange c)
    (hthr0 : 0 ≤ c.threshold) (hthrM : c.threshold ≤ PWM_MAX)
    {p q : ℚ} (hpq : p ≤ q) : interpolate sq c p ≤ interpolate sq c q := by
  unfold interpolate
  simp only []
  have hraw : rawInterpolate sq c p ≤ rawInterpolate sq c q := raw_mono sq hnd hmono hrange hpq
  have hthr0q : (0 : ℚ) ≤ (c.threshold : ℚ) := by exact_mod_cast hthr0
  have hthrMq : (c.threshold : ℚ) ≤ (PWM_MAX : ℚ) := by exact_mod_cast hthrM
  rcases raw_range sq hnd hrange p with ⟨hp0, hpM⟩
  rcases raw_range sq hnd hrange q with ⟨hq0, hqM⟩
  have hM : (0 : ℚ) < (PWM_MAX : ℚ) := by norm_num [PWM_MAX]
  by_cases hcp : 0 < c.threshold ∧ 0 < p
  · have hcq : 0 < c.threshold ∧ 0 < q := ⟨hcp.1, lt_of_lt_of_le hcp.2 hpq⟩
    rw [if_pos hcp, if_pos hcq]
    apply pyTrunc_mono
    have : ((rawInterpolate sq c p : ℤ) : ℚ) / (PWM_MAX : ℚ) ≤
        ((rawInterpolate sq c q : ℤ) : ℚ) / (PWM_MAX : ℚ) := by
      rw [div_eq_mul_inv, div_eq_mul_inv]
      exact mul_le_mul_of_nonneg_right (by exact_mod_cast hraw) (inv_nonneg.mpr hM.le)
    nlinarith
  · rw [if_neg hcp]
    by_cases hcq : 0 < c.threshold ∧ 0 < q
    · rw [if_pos hcq]
      have hqMq : ((rawInterpolate sq c q : ℤ) : ℚ) ≤ (PWM_MAX : ℚ) := by exact_mod_cast hqM
      have hq0q : (0 : ℚ) ≤ ((rawInterpolate sq c q : ℤ) : ℚ) := by exact_mod_cast hq0
      refine le_pyTrunc ?_ hp0
      have hremap : ((rawInterpolate sq c q : ℤ) : ℚ) ≤
          (c.threshold : ℚ) + ((rawInterpolate sq c q : ℤ) : ℚ) / (PWM_MAX : ℚ) *
            ((PWM_MAX : ℚ) - (c.threshold : ℚ)) := by
        have hdiv : ((rawInterpolate sq c q : ℤ) : ℚ) / (PWM_MAX : ℚ) ≤ 1 := by
          rw [div_le_one hM]
          exact hqMq
        have hvm : ((rawInterpolate sq c q : ℤ) : ℚ) / (PWM_MAX : ℚ) * (PWM_MAX : ℚ) =
            ((rawInterpolate sq c q : ℤ) : ℚ) := div_mul_cancel₀ _ (ne_of_gt hM)
        nlinarith [mul_nonneg hthr0q (sub_nonneg.mpr hdiv)]
      have : ((rawInterpolate sq c p : ℤ) : ℚ) ≤ ((rawInterpolate sq c q : ℤ) : ℚ) := by
        exact_mod_cast hraw
      linarith
    · rw [if_neg hcq]
      exact hraw

theorem interpolate_range (sq : ℚ → ℚ) {c : ChannelCalibration}
    (hnd : (c.points.map Prod.fst).Nodup) (hrange : ValsRange c)
    (hthr0 : 0 ≤ c.threshold) (hthrM : c.threshold ≤ PWM_MAX) (p : ℚ) :
    0 ≤ interpolate sq c p ∧ interpolate sq c p ≤ PWM_MAX := by
  unfold interpolate
  simp only []
  rcases raw_range sq hnd hrange p with ⟨hp0, hpM⟩
  by_cases hcp : 0 < c.threshold ∧ 0 < p
  · rw [if_pos hcp]
    have hthr0q : (0 : ℚ) ≤ (c.threshold : ℚ) := by exact_mod_cast hthr0
    have hthrMq : (c.threshold : ℚ) ≤ (PWM_MAX : ℚ) := by exact_mod_cast hthrM
    have hM : (0 : ℚ) < (PWM_MAX : ℚ) := by norm_num [PWM_MAX]
    have hp0q : (0 : ℚ) ≤ ((rawInterpolate sq c p : ℤ) : ℚ) := by exact_mod_cast hp0
    have hpMq : ((rawInterpolate sq c p : ℤ) : ℚ) ≤ (PWM_MAX : ℚ) := by exact_mod_cast hpM
    have hdiv : ((rawInterpolate sq c p : ℤ) : ℚ) / (PWM_MAX : ℚ) ≤ 1 := by
      rw [div_le_one hM]
      exact hpMq
    have hdiv0 : 0 ≤ ((rawInterpolate sq c p : ℤ) : ℚ) / (PWM_MAX : ℚ) :=
      div_nonneg hp0q hM.le
    constructor
    · apply pyTrunc_nonneg
      nlinarith
    · apply pyTrunc_le
      nlinarith
  · rw [if_neg hcp]
    exact ⟨hp0, hpM⟩

theorem optTraverse_eq_map {α β : Type} (f : α → Option β) (g : α → β) :
    ∀ l : List α, (∀ a ∈ l, f a = some (g a)) → optTraverse f l = some (l.map g)
  | [], _ => rfl
  | a :: l, h => by
    rw [optTraverse, h a (by simp), optTraverse_eq_map f g l (fun b hb => h b (by simp [hb]))]
    simp

theorem generate_lut_eq (sq : ℚ → ℚ) (c : ChannelCalibration) {size : ℤ} (h2 : 2 ≤ size) :
    generate_lut sq c size =
      some ((pyRange size).map
        (fun (i : ℤ) => interpolate sq c ((i : ℚ) / ((size : ℚ) - 1) * 100))) := by
  unfold generate_lut
  apply optTraverse_eq_map
  intro a _
  have hne : ((size : ℚ) - 1) ≠ 0 := by
    have : (2 : ℚ) ≤ (size : ℚ) := by exact_mod_cast h2
    intro hc
    nlinarith
  rw [pyDiv, if_neg hne]
  rfl

theorem pyRange_getD {size : ℤ} {i : ℕ} (hi : i < size.toNat) :
    (pyRange size).getD i 0 = (i : ℤ) := by
  unfold pyRange
  rw [List.getD_eq_getElem _ _ (by simpa using hi), List.getElem_map, List.getElem_range]
  simp

theorem pyRange_length (size : ℤ) : (pyRange size).length = size.toNat := by
  unfold pyRange
  simp

/-! ### Dictionary mutation lemmas -/

theorem dictGet?_dictSet_self : ∀ (pts : List (ℤ × ℤ)) (k v : ℤ),
    dictGet? (dictSet pts k v) k = some v
  | [], k, v => by
    unfold dictSet dictGet?
    rw [List.find?_cons_of_pos _ (by simp)]
    rfl
  | kv :: rest, k, v => by
    rw [dictSet]
    by_cases h : kv.1 = k
    · rw [if_pos h]
      unfold dictGet?
      rw [List.find?_cons_of_pos _ (by simp)]
      rfl
    · rw [if_neg h]
      unfold dictGet?
      rw [List.find?_cons_of_neg _ (by simpa using h)]
      exact dictGet?_dictSet_self rest k v

theorem dictGet?_dictSet_ne : ∀ (pts : List (ℤ × ℤ)) (k v q : ℤ), q ≠ k →
    dictGet? (dictSet pts k v) q = dictGet? pts q
  | [], k, v, q, hq => by
    unfold dictSet dictGet?
    rw [List.find?_cons_of_neg _ (by simpa using fun h => hq h.symm)]
  | kv :: rest, k, v, q, hq => by
    rw [dictSet]
    by_cases h : kv.1 = k
    · rw [if_pos h]
      unfold dictGet?
      rw [List.find?_cons_of_neg _ (by simpa using fun hc => hq hc.symm),
        List.find?_cons_of_neg _ (by
          simp only [decide_eq_true_eq]
          rw [h]
          exact fun hc => hq hc.symm)]
    · rw [if_neg h]
      unfold dictGet?
      by_cases h2 : kv.1 = q
      · rw [List.find?_cons_of_pos _ (by simpa using h2),
          List.find?_cons_of_pos _ (by simpa using h2)]
      · rw [List.find?_cons_of_neg _ (by simpa using h2),
          List.find?_cons_of_neg _ (by simpa using h2)]
        exact dictGet?_dictSet_ne rest k v q hq

theorem mem_keys_dictSet : ∀ (pts : List (ℤ × ℤ)) (k v m : ℤ),
    m ∈ (dictSet pts k v).map Prod.fst ↔ (m = k ∨ m ∈ pts.map Prod.fst)
  | [], k, v, m => by simp [dictSet]
  | kv :: rest, k, v, m => by
    rw [dictSet]
    by_cases h : kv.1 = k
    · rw [if_pos h]
      simp only [List.map_cons, List.mem_cons]
      constructor
      · rintro (h1 | h1)
        · exact Or.inl h1
        · exact Or.inr (Or.inr h1)
      · rintro (h1 | h1 | h1)
        · exact Or.inl h1
        · rw [h] at h1
          exact Or.inl h1
        · exact Or.inr h1
    · rw [if_neg h]
      simp only [List.map_cons, List.mem_cons]
      rw [mem_keys_dictSet rest k v m]
      tauto

theorem length_dictSet_ge : ∀ (pts : List (ℤ × ℤ)) (k v : ℤ),
    pts.length ≤ (dictSet pts k v).length
  | [], k, v => by simp [dictSet]
  | kv :: rest, k, v => by
    rw [dictSet]
    by_cases h : kv.1 = k
    · rw [if_pos h]
      simp
    · rw [if_neg h]
      simpa using length_dictSet_ge rest k v

theorem dictGet?_dictPop_ne : ∀ (pts : List (ℤ × ℤ)) (k q : ℤ), q ≠ k →
    dictGet? (dictPop pts k) q = dictGet? pts q
  | [], k, q, hq => rfl
  | kv :: rest, k, q, hq => by
    unfold dictPop
    rw [List.eraseP_cons]
    by_cases h : kv.1 = k
    · rw [show (decide (kv.1 = k)) = true by simpa using h]
      simp only [cond_true]
      unfold dictGet?
      rw [List.find?]
      rw [show (decide (kv.1 = q)) = false by
        simp only [decide_eq_false_iff_not]
        rw [h]
        exact fun hc => hq hc.symm]
    · rw [show (decide (kv.1 = k)) = false by simpa using h]
      simp only [cond_false]
      unfold dictGet?
      rw [List.find?, List.find?]
      by_cases h2 : kv.1 = q
      · rw [show (decide (kv.1 = q)) = true by simpa using h2]
      · rw [show (decide (kv.1 = q)) = false by simpa using h2]
        exact dictGet?_dictPop_ne rest k q hq

theorem mem_keys_dictPop (pts : List (ℤ × ℤ)) (k m : ℤ) (hm : m ≠ k)
    (hmem : m ∈ pts.map Prod.fst) : m ∈ (dictPop pts k).map Prod.fst := by
  rcases List.mem_map.mp hmem with ⟨kv2, hkv2, hfst⟩
  refine List.mem_map.mpr ⟨kv2, ?_, hfst⟩
  unfold dictPop
  rw [List.mem_eraseP_of_neg]
  · exact hkv2
  · simp only [decide_eq_true_eq]
    intro hc
    rw [← hfst] at hm
    exact hm hc

theorem dictPop_of_not_mem : ∀ (pts : List (ℤ × ℤ)) (k : ℤ),
    k ∉ pts.map Prod.fst → dictPop pts k = pts := by
  intro pts k hk
  unfold dictPop
  apply List.eraseP_of_forall_not
  intro kv hkv
  simp only [decide_eq_false_iff_not, decide_eq_true_eq]
  intro hc
  exact hk (List.mem_map.mpr ⟨kv, hkv, hc⟩)

theorem dictGet?_dictPop_self : ∀ (pts : List (ℤ × ℤ)) (k : ℤ),
    (pts.map Prod.fst).Nodup → dictGet? (dictPop pts k) k = none
  | [], k, _ => rfl
  | kv :: rest, k, hnd => by
    unfold dictPop
    rw [List.eraseP_cons]
    rw [List.map_cons] at hnd
    have hnd2 := List.nodup_cons.mp hnd
    by_cases h : kv.1 = k
    · rw [show (decide (kv.1 = k)) = true by simpa using h]
      simp only [cond_true]
      unfold dictGet?
      rw [Option.map_eq_none']
      rw [List.find?_eq_none]
      intro a ha
      simp only [decide_eq_true_eq]
      intro hc
      apply hnd2.1
      rw [h, ← hc]
      exact List.mem_map.mpr ⟨a, ha, rfl⟩
    · rw [show (decide (kv.1 = k)) = false by simpa using h]
      simp only [cond_false]
      unfold dictGet?
      rw [List.find?]
      rw [show (decide (kv.1 = k)) = false by simpa using h]
      exact dictGet?_dictPop_self rest k hnd2.2

theorem dictGet?_isSome_iff {pts : List (ℤ × ℤ)} {k : ℤ} :
    (dictGet? pts k).isSome = true ↔ k ∈ pts.map Prod.fst := by
  constructor
  · intro h
    rcases Option.isSome_iff_exists.mp h with ⟨v, hv⟩
    exact List.mem_map.mpr ⟨(k, v), dictGet?_mem hv, rfl⟩
  · exact dictGet?_isSome_of_mem

theorem two_le_length_of_two_mem {l : List ℤ} {a b : ℤ} (ha : a ∈ l) (hb : b ∈ l)
    (hab : a ≠ b) : 2 ≤ l.length := by
  rcases l with _ | ⟨x, rest⟩
  · simp at ha
  rcases rest with _ | ⟨y, rest2⟩
  · simp only [List.mem_singleton] at ha hb
    exact absurd (ha.trans hb.symm) hab
  · simp

/-! ### Serialization lemmas -/

theorem decStr_roundtrip (k : ℤ) : decStrToInt (intToDecStr k) = k := by
  unfold decStrToInt intToDecStr
  simp only []
  rw [Nat.ofDigits_digits]
  by_cases hk : k < 0
  · rw [if_pos (by simpa using hk)]
    have habs : (k.natAbs : ℤ) = -k := by omega
    rw [habs]
    ring
  · rw [if_neg (by simpa using hk)]
    have habs : (k.natAbs : ℤ) = k := by omega
    rw [habs]
    ring

theorem dictSet_append {pts : List (ℤ × ℤ)} {k : ℤ} (v : ℤ)
    (hk : k ∉ pts.map Prod.fst) : dictSet pts k v = pts ++ [(k, v)] := by
  induction pts with
  | nil => rfl
  | cons kv rest ih =>
    rw [dictSet]
    have hk1 : kv.1 ≠ k := by
      intro hc
      exact hk (by simp [hc.symm])
    rw [if_neg hk1]
    rw [ih (fun hc => hk (by simp [hc]))]
    rfl

theorem foldl_dictSet_eq : ∀ (l acc : List (ℤ × ℤ)),
    ((acc ++ l).map Prod.fst).Nodup →
    l.foldl (fun a kv => dictSet a kv.1 kv.2) acc = acc ++ l
  | [], acc, _ => by simp
  | kv :: rest, acc, hnd => by
    rw [List.foldl_cons]
    have hknotin : kv.1 ∉ acc.map Prod.fst := by
      intro hc
      rw [List.map_append, List.map_cons] at hnd
      rcases List.nodup_append.mp hnd with ⟨_, _, hdisj⟩
      exact hdisj hc (by simp)
    rw [dictSet_append kv.2 hknotin]
    have : acc ++ [(kv.1, kv.2)] ++ rest = acc ++ (kv.1, kv.2) :: rest := by simp
    rw [foldl_dictSet_eq rest (acc ++ [(kv.1, kv.2)]) (by
      rw [this]
      simpa using hnd)]
    rw [this]

theorem from_dict_to_dict {c : ChannelCalibration}
    (hnd : (c.points.map Prod.fst).Nodup) : from_dict c (to_dict c) = c := by
  unfold from_dict to_dict
  simp only [Option.getD_some]
  have hpoints : (c.points.map
        (fun kv => (DictKey.str (intToDecStr kv.1), kv.2))).foldl
      (fun acc kv => dictSet acc (keyToInt kv.1) kv.2) [] = c.points := by
    rw [List.foldl_map]
    have hfun : (fun (acc : List (ℤ × ℤ)) (kv : ℤ × ℤ) =>
        dictSet acc (keyToInt (DictKey.str (intToDecStr kv.1))) kv.2) =
        (fun acc kv => dictSet acc kv.1 kv.2) := by
      funext acc kv
      rw [show keyToInt (DictKey.str (intToDecStr kv.1)) = kv.1 from decStr_roundtrip kv.1]
    rw [hfun]
    have := foldl_dictSet_eq c.points [] (by simpa using hnd)
    simpa using this
  rw [hpoints]

/-! ### Claim theorems -/

/-- C1: for every curve with at least 3 points and every percent strictly
between the smallest and largest keys, `interpolate_smooth` returns a value
within `[min(y[i], y[i+1]), max(y[i], y[i+1])]` for the bracketing segment,
within the global domain `[0, 65535]`, and the final integer is obtained by
truncation toward zero of the clamped rational value — for any point
configuration with drive-values in the stored domain (overshoot-freedom). -/
theorem C1_smooth_no_overshoot (sq : ℚ → ℚ) (c : ChannelCalibration)
    (hrange : ValsRange c)
    (hlen : 3 ≤ (get_sorted_percents c).length) (p : ℚ)
    (hlo : (((get_sorted_percents c).headD 0 : ℤ) : ℚ) < p)
    (hhi : p < (((get_sorted_percents c).getLastD 0 : ℤ) : ℚ)) :
    min (dictGetD c.points ((get_sorted_percents c).getD (segIdx c p) 0) 0)
        (dictGetD c.points ((get_sorted_percents c).getD (segIdx c p + 1) 0) 0) ≤
      interpolate_smooth sq c p ∧
    interpolate_smooth sq c p ≤
      max (dictGetD c.points ((get_sorted_percents c).getD (segIdx c p) 0) 0)
        (dictGetD c.points ((get_sorted_percents c).getD (segIdx c p + 1) 0) 0) ∧
    0 ≤ interpolate_smooth sq c p ∧ interpolate_smooth sq c p ≤ PWM_MAX ∧
    interpolate_smooth sq c p = pyTrunc (smoothRat sq c (get_sorted_percents c) p) := by
  rcases hxs : get_sorted_percents c with _ | ⟨x0, rest0⟩
  · rw [hxs] at hlen
    simp at hlen
  rcases rest0 with _ | ⟨x1, rest⟩
  · rw [hxs] at hlen
    simp at hlen
  have h1 : ¬(p ≤ (x0 : ℚ)) := by
    push_neg
    rw [hxs] at hlo
    simpa using hlo
  have h2 : ¬((((x0 :: x1 :: rest).getLastD 0 : ℤ) : ℚ) ≤ p) := by
    push_neg
    rw [hxs] at hhi
    exact hhi
  rw [← hxs]
  rcases smooth_interior_bundle sq hxs h1 h2 with ⟨hj, hjlo, hjhi, heval⟩
  have hY0 := YQ_range hrange (show segIdx c p < (get_sorted_percents c).length by omega)
  have hY1 := YQ_range hrange hj
  rcases clampSeg_bounds (YQ c (segIdx c p)) (YQ c (segIdx c p + 1))
    (hermiteH (XQ c (segIdx c p)) (XQ c (segIdx c p + 1)) (YQ c (segIdx c p))
      (YQ c (segIdx c p + 1)) (MQ sq c (segIdx c p)) (MQ sq c (segIdx c p + 1)) p)
    with ⟨hcl, hcu⟩
  have hminB : 0 ≤ min (YQ c (segIdx c p)) (YQ c (segIdx c p + 1)) :=
    le_min hY0.1 hY1.1
  have hmaxB : max (YQ c (segIdx c p)) (YQ c (segIdx c p + 1)) ≤ (PWM_MAX : ℚ) :=
    max_le hY0.2 hY1.2
  have hgid : clampGlobal (clampSeg (YQ c (segIdx c p)) (YQ c (segIdx c p + 1))
      (hermiteH (XQ c (segIdx c p)) (XQ c (segIdx c p + 1)) (YQ c (segIdx c p))
        (YQ c (segIdx c p + 1)) (MQ sq c (segIdx c p)) (MQ sq c (segIdx c p + 1)) p)) =
      clampSeg (YQ c (segIdx c p)) (YQ c (segIdx c p + 1))
        (hermiteH (XQ c (segIdx c p)) (XQ c (segIdx c p + 1)) (YQ c (segIdx c p))
          (YQ c (segIdx c p + 1)) (MQ sq c (segIdx c p)) (MQ sq c (segIdx c p + 1)) p) :=
    clampGlobal_id (le_trans hminB hcl) (le_trans hcu hmaxB)
  have hYcast0 : YQ c (segIdx c p) =
      ((dictGetD c.points ((get_sorted_percents c).getD (segIdx c p) 0) 0 : ℤ) : ℚ) := rfl
  have hYcast1 : YQ c (segIdx c p + 1) =
      ((dictGetD c.points ((get_sorted_percents c).getD (segIdx c p + 1) 0) 0 : ℤ) : ℚ) := rfl
  have h0a : (0 : ℤ) ≤ dictGetD c.points ((get_sorted_percents c).getD (segIdx c p) 0) 0 := by
    have := hY0.1
    rw [hYcast0] at this
    exact_mod_cast this
  have h0b : (0 : ℤ) ≤
      dictGetD c.points ((get_sorted_percents c).getD (segIdx c p + 1) 0) 0 := by
    have := hY1.1
    rw [hYcast1] at this
    exact_mod_cast this
  refine ⟨?_, ?_, ?_, ?_, ?_⟩
  · rw [heval, hgid]
    refine le_pyTrunc ?_ (le_min h0a h0b)
    push_cast
    rw [← hYcast0, ← hYcast1]
    exact hcl
  · rw [heval, hgid]
    apply pyTrunc_le
    refine le_trans hcu ?_
    push_cast
    rw [← hYcast0, ← hYcast1]
  · rw [heval]
    exact pyTrunc_nonneg (clampGlobal_bounds _).1
  · rw [heval]
    exact pyTrunc_le (clampGlobal_bounds _).2
  · rw [heval, smoothRat_view sq c p hj]

/-- Witness for C1 at the default curve and percent 25. -/
theorem C1_witness :
    0 ≤ interpolate_smooth sqZero (initCalibration "ch") 25 ∧
      interpolate_smooth sqZero (initCalibration "ch") 25 ≤ PWM_MAX := by
  have h := C1_smooth_no_overshoot sqZero (initCalibration "ch")
    (by unfold ValsRange; decide) (by decide) 25
    (by
      have hh : (get_sorted_percents (initCalibration "ch")).headD 0 = 0 := by decide
      rw [hh]
      norm_num)
    (by
      have hh : (get_sorted_percents (initCalibration "ch")).getLastD 0 = 100 := by decide
      rw [hh]
      norm_num)
  exact ⟨h.2.2.1, h.2.2.2.1⟩

/-- C2: for every curve whose stored drive-values are non-decreasing in the
percent key (with unique keys, in-range values and an in-range threshold) and
every size ≥ 2, `generate_lut` succeeds and its output is monotonically
non-decreasing; the curve's mode is arbitrary, so this covers both the linear
and the smooth interpolator, with the threshold remap applied. -/
theorem C2_lut_monotone (sq : ℚ → ℚ) (c : ChannelCalibration)
    (hnd : (c.points.map Prod.fst).Nodup) (hmono : ValsMono c) (hrange : ValsRange c)
    (hthr0 : 0 ≤ c.threshold) (hthrM : c.threshold ≤ PWM_MAX) {size : ℤ}
    (hsize : 2 ≤ size) :
    ∃ l, generate_lut sq c size = some l ∧ l.Pairwise (· ≤ ·) := by
  refine ⟨_, generate_lut_eq sq c hsize, ?_⟩
  have hpr : (pyRange size).Pairwise (· ≤ ·) := by
    unfold pyRange
    refine List.Pairwise.map _ ?_ (List.pairwise_lt_range size.toNat)
    intro a b hab
    exact Int.ofNat_le.mpr (Nat.le_of_lt hab)
  refine List.Pairwise.map _ ?_ hpr
  intro a b hab
  apply interpolate_mono sq hnd hmono hrange hthr0 hthrM
  have hs : (0 : ℚ) < (size : ℚ) - 1 := by
    have : (2 : ℚ) ≤ (size : ℚ) := by exact_mod_cast hsize
    linarith
  have habq : (a : ℚ) ≤ (b : ℚ) := by exact_mod_cast hab
  have hdiv : (a : ℚ) / ((size : ℚ) - 1) ≤ (b : ℚ) / ((size : ℚ) - 1) := by
    rw [div_eq_mul_inv, div_eq_mul_inv]
    exact mul_le_mul_of_nonneg_right habq (inv_nonneg.mpr hs.le)
  nlinarith

/-- Witness for C2 at the default curve with size 4. -/
theorem C2_witness :
    ∃ l, generate_lut sqZero (initCalibration "ch") 4 = some l ∧ l.Pairwise (· ≤ ·) :=
  C2_lut_monotone sqZero (initCalibration "ch") (by decide) (by unfold ValsMono; decide)
    (by unfold ValsRange; decide) (by decide) (by decide) (by decide)

/-- C3: `interpolate` applies the threshold remap exactly when `threshold > 0`
and `percent > 0`, the remapped result is the truncation of
`threshold + raw/65535 * (65535 - threshold)`, and on the default curve with
threshold 1000 the query at 100 remaps to exactly 65535 while the query at 0
bypasses the remap and returns the raw value 0, not 1000. -/
theorem C3_threshold_remap (sq : ℚ → ℚ) :
    (∀ (c : ChannelCalibration) (p : ℚ), 0 < c.threshold ∧ 0 < p →
      interpolate sq c p = pyTrunc ((c.threshold : ℚ) +
        ((rawInterpolate sq c p : ℤ) : ℚ) / (PWM_MAX : ℚ) *
          ((PWM_MAX : ℚ) - (c.threshold : ℚ)))) ∧
    (∀ (c : ChannelCalibration) (p : ℚ), ¬(0 < c.threshold ∧ 0 < p) →
      interpolate sq c p = rawInterpolate sq c p) ∧
    interpolate sq thrCurve 100 = 65535 ∧
    interpolate sq thrCurve 0 = 0 := by
  have hbase1 : ∀ (c : ChannelCalibration) (p : ℚ), 0 < c.threshold ∧ 0 < p →
      interpolate sq c p = pyTrunc ((c.threshold : ℚ) +
        ((rawInterpolate sq c p : ℤ) : ℚ) / (PWM_MAX : ℚ) *
          ((PWM_MAX : ℚ) - (c.threshold : ℚ))) := by
    intro c p hc
    unfold interpolate
    simp only []
    rw [if_pos hc]
  have hbase2 : ∀ (c : ChannelCalibration) (p : ℚ), ¬(0 < c.threshold ∧ 0 < p) →
      interpolate sq c p = rawInterpolate sq c p := by
    intro c p hc
    unfold interpolate
    simp only []
    rw [if_neg hc]
  refine ⟨hbase1, hbase2, ?_, ?_⟩
  · have hxs : get_sorted_percents thrCurve = [0, 1, 50, 100] := by decide
    have hg : ([0, 1, 50, 100] : List ℤ).getLastD 0 = 100 := by decide
    have hsm0 : interpolate_smooth sq thrCurve 100 =
        dictGetD thrCurve.points (([0, 1, 50, 100] : List ℤ).getLastD 0) 0 :=
      interpolate_smooth_high sq hxs (by norm_num) (by rw [hg]; norm_num)
    have hsm : interpolate_smooth sq thrCurve 100 = dictGetD thrCurve.points 100 0 := by
      rw [hsm0, hg]
    have hval : dictGetD thrCurve.points 100 0 = 65535 := by decide
    have hraw : rawInterpolate sq thrCurve 100 = 65535 := by
      unfold rawInterpolate
      rw [if_pos (by exact ⟨by decide, by decide⟩)]
      rw [hsm, hval]
    rw [hbase1 thrCurve 100 ⟨by decide, by norm_num⟩, hraw]
    have hthr : thrCurve.threshold = 1000 := by decide
    rw [hthr]
    show pyTrunc ((1000 : ℚ) + ((65535 : ℤ) : ℚ) / ((65535 : ℤ) : ℚ) *
      (((65535 : ℤ) : ℚ) - (1000 : ℚ))) = 65535
    norm_num [pyTrunc]
  · have hxs : get_sorted_percents thrCurve = [0, 1, 50, 100] := by decide
    have hsm : interpolate_smooth sq thrCurve 0 = dictGetD thrCurve.points 0 0 := by
      exact interpolate_smooth_low sq hxs (by norm_num)
    have hraw : rawInterpolate sq thrCurve 0 = 0 := by
      unfold rawInterpolate
      rw [if_pos (by exact ⟨by decide, by decide⟩)]
      rw [hsm]
      decide
    rw [hbase2 thrCurve 0 (by
      intro hc
      exact absurd hc.2 (by norm_num)), hraw]

/-- Witness for C3: the remap equation instantiated at the threshold curve and
percent 50. -/
theorem C3_witness :
    interpolate sqZero thrCurve 50 = pyTrunc ((thrCurve.threshold : ℚ) +
      ((rawInterpolate sqZero thrCurve 50 : ℤ) : ℚ) / (PWM_MAX : ℚ) *
        ((PWM_MAX : ℚ) - (thrCurve.threshold : ℚ))) :=
  (C3_threshold_remap sqZero).1 thrCurve 50 ⟨by decide, by norm_num⟩

theorem applyOp_keeps_key {c : ChannelCalibration} {m : ℤ} (hm : m = 0 ∨ m = 100)
    (hmem : m ∈ c.points.map Prod.fst) (op : CalOp) :
    m ∈ (applyOp c op).points.map Prod.fst := by
  rcases op with ⟨percent, pwm⟩ | ⟨percent⟩ | ⟨lower, upper⟩
  · exact (mem_keys_dictSet _ _ _ _).mpr (Or.inr hmem)
  · simp only [applyOp]
    unfold remove_point
    by_cases h : percent = 0 ∨ percent = 100
    · rw [if_pos h]
      exact hmem
    · rw [if_neg h]
      refine mem_keys_dictPop _ _ _ ?_ hmem
      rcases hm with hm | hm <;> (subst hm; tauto)
  · simp only [applyOp]
    unfold add_point_between
    simp only []
    by_cases h : (dictGet? c.points (Int.fdiv (lower + upper) 2)).isSome = false ∧
        Int.fdiv (lower + upper) 2 ≠ lower ∧ Int.fdiv (lower + upper) 2 ≠ upper
    · rw [if_pos h]
      exact (mem_keys_dictSet _ _ _ _).mpr (Or.inr hmem)
    · rw [if_neg h]
      exact hmem

theorem foldl_applyOp_keeps_key {m : ℤ} (hm : m = 0 ∨ m = 100) :
    ∀ (ops : List CalOp) (c : ChannelCalibration), m ∈ c.points.map Prod.fst →
      m ∈ (ops.foldl applyOp c).points.map Prod.fst
  | [], c, hmem => hmem
  | op :: ops, c, hmem => by
    rw [List.foldl_cons]
    exact foldl_applyOp_keeps_key hm ops _ (applyOp_keeps_key hm hmem op)

/-- C4 counterexample: the source truncates the linear blend toward zero rather
than rounding it. On the curve 0↦0, 3↦5, 100↦65535 at percent 1 the exact
blend is 5/3; the code returns 1 while the claimed rounding yields 2. -/
theorem C4_round_counterexample :
    interpolate_linear cexCurve 1 = 1 ∧
    round ((0 : ℚ) + (1 - 0) / (3 - 0) * (5 - 0)) = 2 ∧ (1 : ℤ) ≠ 2 := by
  refine ⟨?_, by norm_num [round_eq], by decide⟩
  have hxs : get_sorted_percents cexCurve = [0, 3, 100] := by decide
  have h1 : ¬((1 : ℚ) ≤ ((0 : ℤ) : ℚ)) := by norm_num
  have hg : ([0, 3, 100] : List ℤ).getLastD 0 = 100 := by decide
  have heq := lin_bracket_eq (c := cexCurve) (by decide) hxs (i := 0) (p := 1)
    (by simp) (by norm_num) (by norm_num)
  rw [heq]
  norm_num [dictGetD, dictGet?, cexCurve, List.find?, pyTrunc]
  decide

/-- C4 amended: for percents strictly between two consecutive sorted keys,
`interpolate_linear` returns `int(value[lower] + t * (value[upper] -
value[lower]))`, i.e. the blend truncated toward zero (not rounded); an exact
key match returns the stored value directly; and on the default curve in linear
mode with threshold 0, `evaluate(25)` blends between key 1 and key 50 with
`t = 24/49`, giving exactly 16049 (the real value is about 16049.14). -/
theorem C4_linear_truncated_blend :
    (∀ (c : ChannelCalibration), (c.points.map Prod.fst).Nodup →
      ∀ (x0 : ℤ) (rest : List ℤ), get_sorted_percents c = x0 :: rest →
      ∀ (p : ℚ) (i : ℕ), i + 1 < (x0 :: rest).length →
      (((x0 :: rest).getD i 0 : ℤ) : ℚ) < p →
      p < (((x0 :: rest).getD (i + 1) 0 : ℤ) : ℚ) →
      interpolate_linear c p =
        pyTrunc ((dictGetD c.points ((x0 :: rest).getD i 0) 0 : ℚ) +
          (p - (((x0 :: rest).getD i 0 : ℤ) : ℚ)) /
              ((((x0 :: rest).getD (i + 1) 0 : ℤ) : ℚ) - (((x0 :: rest).getD i 0 : ℤ) : ℚ)) *
            ((dictGetD c.points ((x0 :: rest).getD (i + 1) 0) 0 : ℚ) -
              (dictGetD c.points ((x0 :: rest).getD i 0) 0 : ℚ)))) ∧
    (∀ (c : ChannelCalibration) (k : ℤ), k ∈ get_sorted_percents c →
      interpolate_linear c (k : ℚ) = dictGetD c.points k 0) ∧
    interpolate sqZero linCurve 25 = 16049 := by
  refine ⟨?_, ?_, ?_⟩
  · intro c hnd x0 rest hxs p i hlen hlo hhi
    exact lin_bracket_eq hnd hxs hlen hlo hhi
  · intro c k hk
    rcases hxs : get_sorted_percents c with _ | ⟨x0, rest⟩
    · rw [hxs] at hk
      simp at hk
    have hsor : List.Sorted (· ≤ ·) (x0 :: rest) := hxs ▸ sorted_percents_sorted c
    have hkmem : k ∈ x0 :: rest := hxs ▸ hk
    unfold interpolate_linear
    rw [hxs]
    by_cases h1 : (k : ℚ) ≤ (x0 : ℚ)
    · simp only [if_pos h1]
      have : k = x0 := le_antisymm (by exact_mod_cast h1) (head_le_of_sorted hsor hkmem)
      rw [this]
    · simp only [if_neg h1]
      by_cases h2 : (((x0 :: rest).getLastD 0 : ℤ) : ℚ) ≤ (k : ℚ)
      · simp only [if_pos h2]
        have : k = (x0 :: rest).getLastD 0 :=
          le_antisymm (le_getLastD_of_sorted hsor hkmem) (by exact_mod_cast h2)
        rw [this]
      · simp only [if_neg h2]
        have hsome : ((x0 :: rest).find?
            (fun (m : ℤ) => decide ((m : ℚ) = (k : ℚ)))).isSome := by
          rw [List.find?_isSome]
          exact ⟨k, hkmem, by simp⟩
        rcases hfind : (x0 :: rest).find? (fun (m : ℤ) => decide ((m : ℚ) = (k : ℚ)))
          with _ | k0
        · rw [hfind] at hsome
          simp at hsome
        · have hk0 := List.find?_some hfind
          have hk0k : k0 = k := by
            have : (k0 : ℚ) = (k : ℚ) := by simpa using hk0
            exact_mod_cast this
          rw [hk0k]
  · have hbypass : interpolate sqZero linCurve 25 = rawInterpolate sqZero linCurve 25 := by
      unfold interpolate
      simp only []
      rw [if_neg (fun hc => absurd hc.1 (by decide))]
    have hlin : rawInterpolate sqZero linCurve 25 = interpolate_linear linCurve 25 := by
      unfold rawInterpolate
      rw [if_neg (by decide)]
    rw [hbypass, hlin]
    have hxs : get_sorted_percents linCurve = [0, 1, 50, 100] := by decide
    have heq := lin_bracket_eq (c := linCurve) (by decide) hxs (i := 1) (p := 25)
      (by simp) (by norm_num) (by norm_num)
    rw [heq]
    norm_num [dictGetD, dictGet?, linCurve, initCalibration, PWM_MAX, List.find?, pyTrunc]
    decide

/-- Witness for C4: the exact-key clause instantiated at the default linear
curve and key 50. -/
theorem C4_witness : interpolate_linear linCurve ((50 : ℤ) : ℚ) =
    dictGetD linCurve.points 50 0 :=
  C4_linear_truncated_blend.2.1 linCurve 50 (by decide)

/-- C5 counterexample: `set_point` stores the percent key unclamped, so a
stored key can lie outside 0..100. -/
theorem C5_percent_unclamped_counterexample :
    (150 : ℤ) ∈ ((set_point (initCalibration "ch") 150 5).points.map Prod.fst) ∧
    ¬((150 : ℤ) ≤ 100) := by
  decide

/-- C5 amended: `set_point` always succeeds and stores the drive-value clamped
to `[0, 65535]`, but at the percent key exactly as given (the key is not
clamped to `[0, 100]`, so stored keys can lie outside that range); threshold
and mode are untouched. -/
theorem C5_set_point_amended (c : ChannelCalibration) (percent pwm_value : ℤ) :
    dictGet? (set_point c percent pwm_value).points percent =
      some (max 0 (min PWM_MAX pwm_value)) ∧
    (∀ q : ℤ, q ∈ (set_point c percent pwm_value).points.map Prod.fst ↔
      (q = percent ∨ q ∈ c.points.map Prod.fst)) ∧
    (set_point c percent pwm_value).threshold = c.threshold ∧
    (set_point c percent pwm_value).use_smooth = c.use_smooth :=
  ⟨dictGet?_dictSet_self _ _ _, fun q => mem_keys_dictSet _ _ _ q, rfl, rfl⟩

/-- C6: `add_point_between` computes the floor midpoint; it creates no point
when the midpoint already exists or coincides with an endpoint, and otherwise
inserts the midpoint with the floor average of the neighbouring values (0 for
an absent lower, 65535 for an absent upper) and returns it. On the default
curve, inserting between 20 and 30 creates 25 with value 32767, and inserting
between 20 and 21 creates nothing. -/
theorem C6_add_point_between (c : ChannelCalibration) (lower_percent upper_percent : ℤ) :
    ((Int.fdiv (lower_percent + upper_percent) 2 ∈ c.points.map Prod.fst ∨
        Int.fdiv (lower_percent + upper_percent) 2 = lower_percent ∨
        Int.fdiv (lower_percent + upper_percent) 2 = upper_percent) →
      add_point_between c lower_percent upper_percent = (none, c)) ∧
    (¬(Int.fdiv (lower_percent + upper_percent) 2 ∈ c.points.map Prod.fst ∨
        Int.fdiv (lower_percent + upper_percent) 2 = lower_percent ∨
        Int.fdiv (lower_percent + upper_percent) 2 = upper_percent) →
      add_point_between c lower_percent upper_percent =
        (some (Int.fdiv (lower_percent + upper_percent) 2),
          { c with points := (dictSet c.points (Int.fdiv (lower_percent + upper_percent) 2)
              (Int.fdiv (dictGetD c.points lower_percent 0 +
                dictGetD c.points upper_percent PWM_MAX) 2)) })) ∧
    add_point_between (initCalibration "ch") 20 30 =
      (some 25, { initCalibration "ch" with
        points := [(0, 0), (1, 0), (50, 32767), (100, 65535), (25, 32767)] }) ∧
    add_point_between (initCalibration "ch") 20 21 = (none, initCalibration "ch") := by
  refine ⟨?_, ?_, by decide, by decide⟩
  · intro h
    unfold add_point_between
    simp only []
    rw [if_neg]
    intro ⟨hs, hl, hu⟩
    rcases h with h | h | h
    · rw [(dictGet?_isSome_iff).mpr h] at hs
      exact absurd hs (by simp)
    · exact hl h
    · exact hu h
  · intro h
    push_neg at h
    unfold add_point_between
    simp only []
    rw [if_pos]
    refine ⟨?_, h.2.1, h.2.2⟩
    rcases hb : (dictGet? c.points (Int.fdiv (lower_percent + upper_percent) 2)).isSome
      with _ | _
    · rfl
    · exact absurd (dictGet?_isSome_iff.mp hb) h.1

/-- Witness for C6: inserting between 20 and 21 on the default curve creates
no point. -/
theorem C6_witness :
    add_point_between (initCalibration "ch") 20 21 = (none, initCalibration "ch") :=
  (C6_add_point_between (initCalibration "ch") 20 21).1 (by decide)

/-- C7: starting from the default curve, any finite sequence of `set_point`,
`remove_point` and `add_point_between` operations leaves keys 0 and 100 stored
and at least 2 points present; `remove_point` is a no-op on 0, 100 and absent
keys, and deletes any other present key. -/
theorem C7_endpoint_invariant :
    (∀ (name : String) (ops : List CalOp),
      (0 : ℤ) ∈ ((ops.foldl applyOp (initCalibration name)).points.map Prod.fst) ∧
      (100 : ℤ) ∈ ((ops.foldl applyOp (initCalibration name)).points.map Prod.fst) ∧
      2 ≤ (ops.foldl applyOp (initCalibration name)).points.length) ∧
    (∀ c : ChannelCalibration, remove_point c 0 = c) ∧
    (∀ c : ChannelCalibration, remove_point c 100 = c) ∧
    (∀ (c : ChannelCalibration) (percent : ℤ), percent ∉ c.points.map Prod.fst →
      remove_point c percent = c) ∧
    (∀ (c : ChannelCalibration) (percent : ℤ), (c.points.map Prod.fst).Nodup →
      percent ≠ 0 → percent ≠ 100 →
      dictGet? (remove_point c percent).points percent = none) := by
  refine ⟨?_, ?_, ?_, ?_, ?_⟩
  · intro name ops
    have h0 : (0 : ℤ) ∈ ((ops.foldl applyOp (initCalibration name)).points.map Prod.fst) :=
      foldl_applyOp_keeps_key (Or.inl rfl) ops _ (by simp [initCalibration])
    have h100 : (100 : ℤ) ∈ ((ops.foldl applyOp (initCalibration name)).points.map Prod.fst) :=
      foldl_applyOp_keeps_key (Or.inr rfl) ops _ (by simp [initCalibration])
    refine ⟨h0, h100, ?_⟩
    have := two_le_length_of_two_mem h0 h100 (by decide)
    simpa using this
  · intro c
    unfold remove_point
    rw [if_pos (Or.inl rfl)]
  · intro c
    unfold remove_point
    rw [if_pos (Or.inr rfl)]
  · intro c percent hmem
    unfold remove_point
    by_cases h : percent = 0 ∨ percent = 100
    · rw [if_pos h]
    · rw [if_neg h, dictPop_of_not_mem _ _ hmem]
  · intro c percent hnd h0 h100
    unfold remove_point
    rw [if_neg (by tauto)]
    exact dictGet?_dictPop_self _ _ hnd

/-- Witness for C7: removing the present interior key 50 from the default
curve deletes it. -/
theorem C7_witness :
    dictGet? (remove_point (initCalibration "ch") 50).points 50 = none :=
  C7_endpoint_invariant.2.2.2.2 (initCalibration "ch") 50 (by decide) (by decide) (by decide)

/-- C8 counterexample: `generate_lut(1)` divides by `size - 1 = 0` and raises
ZeroDivisionError (modelled as `none`), so the operation is not total at
size 1 and returns neither a length-1 sequence nor `[evaluate(0)]`. -/
theorem C8_size_one_counterexample :
    generate_lut sqZero (initCalibration "ch") 1 = none := by
  have hr : pyRange 1 = [0] := by decide
  unfold generate_lut
  rw [hr]
  unfold optTraverse pyDiv
  norm_num

/-- C8 amended: for every valid curve and every size ≥ 2, `generate_lut` is
total: it returns a sequence of length exactly `size` whose entry `i` equals
`evaluate(i/(size-1)*100)`, with every value in `[0, 65535]`; at size 1 the
division by `size - 1` raises ZeroDivisionError, so the call fails rather than
returning a sequence. -/
theorem C8_lut_total (sq : ℚ → ℚ) (c : ChannelCalibration)
    (hnd : (c.points.map Prod.fst).Nodup) (hrange : ValsRange c)
    (hthr0 : 0 ≤ c.threshold) (hthrM : c.threshold ≤ PWM_MAX) {size : ℤ}
    (hsize : 2 ≤ size) :
    ∃ l, generate_lut sq c size = some l ∧ (l.length : ℤ) = size ∧
      ∀ i : ℕ, i < l.length →
        l.getD i 0 = interpolate sq c ((i : ℚ) / ((size : ℚ) - 1) * 100) ∧
        0 ≤ l.getD i 0 ∧ l.getD i 0 ≤ PWM_MAX := by
  refine ⟨_, generate_lut_eq sq c hsize, ?_, ?_⟩
  · rw [List.length_map, pyRange_length]
    omega
  · intro i hi
    rw [List.length_map, pyRange_length] at hi
    have hgd : ((pyRange size).map
        (fun (j : ℤ) => interpolate sq c ((j : ℚ) / ((size : ℚ) - 1) * 100))).getD i 0 =
        interpolate sq c (((pyRange size).getD i 0 : ℚ) / ((size : ℚ) - 1) * 100) := by
      rw [List.getD_eq_getElem _ _ (by simpa [pyRange_length] using hi), List.getElem_map,
        List.getD_eq_getElem _ _ (by simpa [pyRange_length] using hi)]
    rw [hgd, pyRange_getD hi]
    refine ⟨by push_cast; ring_nf, ?_⟩
    exact interpolate_range sq hnd hrange hthr0 hthrM _

/-- Witness for C8 at the default curve with size 3. -/
theorem C8_witness :
    ∃ l, generate_lut sqZero (initCalibration "ch") 3 = some l ∧ (l.length : ℤ) = 3 ∧
      ∀ i : ℕ, i < l.length →
        l.getD i 0 = interpolate sqZero (initCalibration "ch") ((i : ℚ) / ((3 : ℚ) - 1) * 100) ∧
        0 ≤ l.getD i 0 ∧ l.getD i 0 ≤ PWM_MAX := by
  have h := C8_lut_total sqZero (initCalibration "ch") (by decide)
    (by unfold ValsRange; decide) (by decide) (by decide)
    (show (2 : ℤ) ≤ 3 by decide)
  exact_mod_cast h

/-- C9 counterexample: loading a record with no `points` field yields the
empty point mapping, not the default point set. -/
theorem C9_missing_points_counterexample :
    (from_dict (initCalibration "ch")
      { name := none, threshold := none, use_smooth := none, points := none }).points = [] ∧
    (initCalibration "ch").points ≠ [] := by
  constructor
  · rfl
  · decide

/-- C9 amended: `from_dict` tolerates absent fields — `name` falls back to the
current name, `threshold` to 0, `use_smooth` to smooth — but an absent
`points` field falls back to the empty mapping rather than the default point
set; loaded keys, whether decimal strings or integers, are coerced to
integers; and a `to_dict` snapshot followed by `from_dict` reproduces
`{points, threshold, mode}` (and the name) exactly for any curve with unique
keys. -/
theorem C9_serialization (c : ChannelCalibration) :
    ((c.points.map Prod.fst).Nodup → from_dict c (to_dict c) = c) ∧
    (∀ (nm : Option String) (thr : Option ℤ) (sm : Option Bool),
      (from_dict c { name := nm, threshold := thr, use_smooth := sm, points := none }).points
        = []) ∧
    (∀ pts : Option (List (DictKey × ℤ)),
      (from_dict c { name := none, threshold := none, use_smooth := none, points := pts }).name = c.name ∧
      (from_dict c { name := none, threshold := none, use_smooth := none, points := pts }).threshold = 0 ∧
      (from_dict c { name := none, threshold := none, use_smooth := none, points := pts }).use_smooth = true) ∧
    (∀ k : ℤ, keyToInt (DictKey.str (intToDecStr k)) = k ∧ keyToInt (DictKey.int k) = k) := by
  refine ⟨fun hnd => from_dict_to_dict hnd, fun nm thr sm => rfl,
    fun pts => ⟨rfl, rfl, rfl⟩, fun k => ⟨decStr_roundtrip k, rfl⟩⟩

/-- Witness for C9: the snapshot round-trip at the default curve. -/
theorem C9_witness :
    from_dict (initCalibration "ch") (to_dict (initCalibration "ch")) =
      initCalibration "ch" :=
  (C9_serialization (initCalibration "ch")).1 (by decide)

/-- C10: every mutation touches only its own target — `set_point` changes at
most the entry at its key and nothing else, `remove_point` changes at most the
entry at its key, and `add_point_between` on success changes only the new
midpoint entry while on failure it returns the state completely unchanged. -/
theorem C10_frame_conditions :
    (∀ (c : ChannelCalibration) (p v q : ℤ), q ≠ p →
      dictGet? (set_point c p v).points q = dictGet? c.points q) ∧
    (∀ (c : ChannelCalibration) (p v : ℤ),
      (set_point c p v).threshold = c.threshold ∧
      (set_point c p v).use_smooth = c.use_smooth ∧
      (set_point c p v).name = c.name) ∧
    (∀ (c : ChannelCalibration) (p q : ℤ), q ≠ p →
      dictGet? (remove_point c p).points q = dictGet? c.points q) ∧
    (∀ (c : ChannelCalibration) (p : ℤ),
      (remove_point c p).threshold = c.threshold ∧
      (remove_point c p).use_smooth = c.use_smooth ∧
      (remove_point c p).name = c.name) ∧
    (∀ (c cc : ChannelCalibration) (l u mid : ℤ),
      add_point_between c l u = (some mid, cc) →
      cc.threshold = c.threshold ∧ cc.use_smooth = c.use_smooth ∧ cc.name = c.name ∧
      dictGet? cc.points mid = some (Int.fdiv (dictGetD c.points l 0 +
        dictGetD c.points u PWM_MAX) 2) ∧
      ∀ q : ℤ, q ≠ mid → dictGet? cc.points q = dictGet? c.points q) ∧
    (∀ (c : ChannelCalibration) (l u : ℤ), (add_point_between c l u).1 = none →
      (add_point_between c l u).2 = c) := by
  refine ⟨?_, ?_, ?_, ?_, ?_, ?_⟩
  · intro c p v q hq
    exact dictGet?_dictSet_ne c.points p _ q hq
  · intro c p v
    exact ⟨rfl, rfl, rfl⟩
  · intro c p q hq
    unfold remove_point
    by_cases h : p = 0 ∨ p = 100
    · rw [if_pos h]
    · rw [if_neg h]
      exact dictGet?_dictPop_ne c.points p q hq
  · intro c p
    unfold remove_point
    by_cases h : p = 0 ∨ p = 100
    · rw [if_pos h]
      exact ⟨rfl, rfl, rfl⟩
    · rw [if_neg h]
      exact ⟨rfl, rfl, rfl⟩
  · intro c cc l u mid heq
    unfold add_point_between at heq
    simp only [] at heq
    by_cases h : (dictGet? c.points (Int.fdiv (l + u) 2)).isSome = false ∧
        Int.fdiv (l + u) 2 ≠ l ∧ Int.fdiv (l + u) 2 ≠ u
    · rw [if_pos h] at heq
      have hmid : Int.fdiv (l + u) 2 = mid := by
        have := congrArg Prod.fst heq
        simpa using this
      have hcc : cc = { c with points := (dictSet c.points (Int.fdiv (l + u) 2)
          (Int.fdiv (dictGetD c.points l 0 + dictGetD c.points u PWM_MAX) 2)) } := by
        have := congrArg Prod.snd heq
        simp only [] at this
        exact this.symm
      subst hcc
      refine ⟨rfl, rfl, rfl, ?_, ?_⟩
      · rw [← hmid]
        exact dictGet?_dictSet_self _ _ _
      · intro q hq
        rw [← hmid] at hq
        exact dictGet?_dictSet_ne _ _ _ _ hq
    · rw [if_neg h] at heq
      exact absurd (congrArg Prod.fst heq) (by simp)
  · intro c l u
    unfold add_point_between
    simp only []
    by_cases h : (dictGet? c.points (Int.fdiv (l + u) 2)).isSome = false ∧
        Int.fdiv (l + u) 2 ≠ l ∧ Int.fdiv (l + u) 2 ≠ u
    · rw [if_pos h]
      intro hc
      exact absurd hc (by simp)
    · rw [if_neg h]
      intro _
      rfl

/-- Witness for C10: the failure branch of `add_point_between` is atomic on a
concrete call. -/
theorem C10_witness :
    (add_point_between (initCalibration "ch") 20 21).2 = initCalibration "ch" :=
  C10_frame_conditions.2.2.2.2.2 (initCalibration "ch") 20 21 (by decide)

end CalWizard
